import Mathlib

/-!
# Verification of the relic secrets-artifact engine

Shallow embedding of the repository's crypto core (`src/crypto.ts`, the
per-value codec version), its tree walker, artifact serializer, key
derivation cache and the CLI edit transaction (`src/cli/index.ts`).

JS strings are modelled as `List Char`, byte arrays as `List Nat` with
values `< 256`.  Platform primitives that are not code of this repository
(Web Crypto's AES-GCM and PBKDF2, `TextEncoder`/`TextDecoder`,
`JSON.parse`) are modelled explicitly; each carries a doc comment saying
what it stands for.
-/

set_option maxHeartbeats 1000000

/-- JS strings are modelled as lists of characters. -/

abbrev Str := List Char

/-! ## Little helpers: base-b digit expansion with structural fuel

Used for decimal rendering of numbers (`${n}` / `JSON.stringify`) and for
the ideal-cipher handles (byte lists `< 256`).  Written with structural
fuel so the kernel can evaluate them in witnesses. -/

/-- Little-endian base-`b` digits of `n`, using `fuel` recursion steps.
`fuel ≥ n` is always enough. -/
def digitsFuel (b : Nat) : Nat → Nat → List Nat
  | 0, _ => []
  | fuel + 1, n => if n = 0 then [] else n % b :: digitsFuel b fuel (n / b)

/-- Little-endian base-`b` digits of `n` (canonical: no trailing zeros). -/
def natDigits (b n : Nat) : List Nat := digitsFuel b n n

/-- Recompose a little-endian digit list. -/
def undigits (b : Nat) : List Nat → Nat
  | [] => 0
  | d :: ds => d + b * undigits b ds

/-! ## Big-endian 4-byte encoding of a 32-bit integer

Models `DataView.setUint32(0, n, false)` / `getUint32(0, false)` from the
codec (`crypto.ts`): JS coerces the stored number with ToUint32, i.e.
`n % 2^32`. -/

/-- `setUint32` big-endian: the four bytes of `n % 2^32`, most significant
first. -/
def beBytes4 (n : Nat) : List Nat :=
  let m := n % 4294967296
  [m / 16777216 % 256, m / 65536 % 256, m / 256 % 256, m % 256]

/-- `getUint32` big-endian on the first four bytes of a list (the caller
guarantees at least four bytes). -/
def beDecode4 (bytes : List Nat) : Nat :=
  match bytes with
  | b0 :: b1 :: b2 :: b3 :: _ => b0 * 16777216 + b1 * 65536 + b2 * 256 + b3
  | _ => 0

/-! ## Base64 (`src/base64.ts`)

`encodeBase64`/`decodeBase64` wrap the platform base64 codec
(`Buffer`/`btoa`/`atob`); the standard RFC 4648 algorithm with `=` padding
is implemented here.  `decodeBase64` returns `none` where `atob` would
throw on a malformed chunk structure. -/

/-- The base64 alphabet. -/
def b64Table : List Char :=
  "ABCDEFGHIJKLMNOPQRSTUVWXYZabcdefghijklmnopqrstuvwxyz0123456789+/".data

/-- The character for a 6-bit group. -/
def c64 (n : Nat) : Char := b64Table.getD n 'A'

/-- The 6-bit group of an alphabet character. -/
def d64 (c : Char) : Nat := b64Table.indexOf c

/-- `encodeBase64`: standard base64 of a byte list. -/
def encodeBase64 : List Nat → List Char
  | [] => []
  | [a] => [c64 (a / 4), c64 (a % 4 * 16), '=', '=']
  | [a, b] => [c64 (a / 4), c64 (a % 4 * 16 + b / 16), c64 (b % 16 * 4), '=']
  | a :: b :: c :: rest =>
    c64 (a / 4) :: c64 (a % 4 * 16 + b / 16) :: c64 (b % 16 * 4 + c / 64) ::
      c64 (c % 64) :: encodeBase64 rest

/-- `decodeBase64`: inverse of `encodeBase64`; `none` on a malformed
chunk structure (where `atob` throws). -/
def decodeBase64 : List Char → Option (List Nat)
  | [] => some []
  | w :: x :: y :: z :: rest =>
    if z = '=' then
      if rest = [] then
        if y = '=' then some [d64 w * 4 + d64 x / 16]
        else some [d64 w * 4 + d64 x / 16, (d64 x % 16 * 16 + d64 y / 4)]
      else none
    else
      (decodeBase64 rest).map fun bs =>
        (d64 w * 4 + d64 x / 16) :: (d64 x % 16 * 16 + d64 y / 4) ::
          ((d64 y % 4 * 64 + d64 z) :: bs)
  | _ => none

/-! ## JSON values

JS values handled by the engine.  `SecretsData` (a JS object) is the
`obj` constructor; field order models JS insertion order.  Numbers are
modelled as integers (the spec's number leaves), strings as `List Char`. -/

inductive Json where
  | null
  | bool (b : Bool)
  | num (n : Int)
  | str (s : Str)
  | arr (elems : List Json)
  | obj (fields : List (Str × Json))

/-- Decimal digit to character. -/
def digitChar : Nat → Char
  | 0 => '0' | 1 => '1' | 2 => '2' | 3 => '3' | 4 => '4'
  | 5 => '5' | 6 => '6' | 7 => '7' | 8 => '8' | _ => '9'

/-- Character to decimal digit (0 for non-digits). -/
def digitVal (c : Char) : Nat :=
  if c = '0' then 0 else if c = '1' then 1 else if c = '2' then 2
  else if c = '3' then 3 else if c = '4' then 4 else if c = '5' then 5
  else if c = '6' then 6 else if c = '7' then 7 else if c = '8' then 8
  else if c = '9' then 9 else 0

/-- Is `c` a decimal digit? -/
def isDigitCh (c : Char) : Bool :=
  c = '0' ∨ c = '1' ∨ c = '2' ∨ c = '3' ∨ c = '4' ∨
    c = '5' ∨ c = '6' ∨ c = '7' ∨ c = '8' ∨ c = '9'

/-- Decimal rendering of a natural number (`String(n)` for n ≥ 0). -/
def natChars (n : Nat) : Str :=
  if n = 0 then ['0'] else ((natDigits 10 n).map digitChar).reverse

/-- Decimal rendering of an integer, as `JSON.stringify` renders the
number leaves of this model. -/
def intChars (i : Int) : Str :=
  if i < 0 then '-' :: natChars i.natAbs else natChars i.toNat

/-! ## `JSON.stringify` (platform primitive, modelled)

Compact form (`JSON.stringify(v)`) used by the codec, and the
pretty form (`JSON.stringify(v, null, 2)`) used by the artifact
serializer.  Model simplification: only `"` and `\` are escaped in
strings (control characters pass through literally); the model parser
below inverts exactly this escaping. -/

/-- Escape one character of a JSON string body. -/
def escChar : Char → Str
  | '"' => ['\\', '"']
  | '\\' => ['\\', '\\']
  | c => [c]

/-- Escape a JSON string body. -/
def escapeStr : Str → Str
  | [] => []
  | c :: cs => escChar c ++ escapeStr cs

mutual

/-- `JSON.stringify(v)` (compact, no whitespace). -/
def stringifyCompact : Json → Str
  | .null => 'n' :: 'u' :: 'l' :: 'l' :: []
  | .bool true => 't' :: 'r' :: 'u' :: 'e' :: []
  | .bool false => 'f' :: 'a' :: 'l' :: 's' :: 'e' :: []
  | .num i => intChars i
  | .str s => '"' :: (escapeStr s ++ ['"'])
  | .arr [] => '[' :: ']' :: []
  | .arr (x :: xs) => '[' :: (stringifyCompact x ++ stringifyArrTail xs ++ [']'])
  | .obj [] => '{' :: '}' :: []
  | .obj (f :: fs) => '{' :: (stringifyField f ++ stringifyObjTail fs ++ ['}'])

/-- Remaining array elements, each preceded by a comma. -/
def stringifyArrTail : List Json → Str
  | [] => []
  | x :: xs => ',' :: (stringifyCompact x ++ stringifyArrTail xs)

/-- One object field, `"key":value`. -/
def stringifyField : Str × Json → Str
  | (k, v) => '"' :: (escapeStr k ++ '"' :: ':' :: stringifyCompact v)

/-- Remaining object fields, each preceded by a comma. -/
def stringifyObjTail : List (Str × Json) → Str
  | [] => []
  | f :: fs => ',' :: (stringifyField f ++ stringifyObjTail fs)

end

/-- Two spaces of indentation per nesting level (`JSON.stringify`'s third
argument `2`). -/
def indentChars (d : Nat) : Str := List.replicate (2 * d) ' '

mutual

/-- `JSON.stringify(v, null, 2)`: pretty-printed with 2-space indent,
fields in insertion order. -/
def stringifyPretty : Json → Nat → Str
  | .null, _ => 'n' :: 'u' :: 'l' :: 'l' :: []
  | .bool true, _ => 't' :: 'r' :: 'u' :: 'e' :: []
  | .bool false, _ => 'f' :: 'a' :: 'l' :: 's' :: 'e' :: []
  | .num i, _ => intChars i
  | .str s, _ => '"' :: (escapeStr s ++ ['"'])
  | .arr [], _ => '[' :: ']' :: []
  | .arr (x :: xs), d =>
    '[' :: '\n' :: (indentChars (d + 1) ++ stringifyPretty x (d + 1) ++
      prettyArrTail xs (d + 1) ++ '\n' :: (indentChars d ++ [']']))
  | .obj [], _ => '{' :: '}' :: []
  | .obj (f :: fs), d =>
    '{' :: '\n' :: (indentChars (d + 1) ++ prettyField f (d + 1) ++
      prettyObjTail fs (d + 1) ++ '\n' :: (indentChars d ++ ['}']))

/-- Remaining pretty array elements. -/
def prettyArrTail : List Json → Nat → Str
  | [], _ => []
  | x :: xs, d => ',' :: '\n' :: (indentChars d ++ stringifyPretty x d ++ prettyArrTail xs d)

/-- One pretty object field, `"key": value`. -/
def prettyField : Str × Json → Nat → Str
  | (k, v), d => '"' :: (escapeStr k ++ '"' :: ':' :: ' ' :: stringifyPretty v d)

/-- Remaining pretty object fields. -/
def prettyObjTail : List (Str × Json) → Nat → Str
  | [], _ => []
  | f :: fs, d => ',' :: '\n' :: (indentChars d ++ prettyField f d ++ prettyObjTail fs d)

end

/-! ## `TextEncoder` / `TextDecoder` (platform primitive, modelled)

Modelled as the code-point sequence of the string — an injective text
codec with `textDecode ∘ textEncode = id`, which is the contract the
repository relies on (the real pair is UTF-8). -/

/-- `new TextEncoder().encode(s)`. -/
def textEncode (s : Str) : List Nat := s.map Char.toNat

/-- `new TextDecoder().decode(bytes)`. -/
def textDecode (bytes : List Nat) : Str := bytes.map Char.ofNat

/-! ## `JSON.parse` (platform primitive, modelled)

A recursive-descent parser for the whitespace-free JSON the model's
printers emit (whitespace handling is elided; inputs with whitespace
parse as `none`).  Fuel bounds value-nesting depth; `jsonParse` supplies
more fuel than any input can need. -/

/-- Does the string start with character `c`? -/
def headIs (s : Str) (c : Char) : Bool :=
  match s with
  | x :: _ => x = c
  | [] => false

/-- Match an expected literal character sequence, returning the rest. -/
def expectChars : Str → Str → Option Str
  | [], input => some input
  | p :: ps, c :: rest => if c = p then expectChars ps rest else none
  | _ :: _, [] => none

mutual

/-- Scan a JSON string body after the opening quote, un-escaping
backslash pairs, up to the closing quote. -/
def scanString : Str → Option (Str × Str)
  | [] => none
  | c :: rest =>
    if c = '\\' then scanEscaped rest
    else if c = '"' then some ([], rest)
    else (scanString rest).map fun p => (c :: p.1, p.2)

/-- The character after a backslash is taken literally. -/
def scanEscaped : Str → Option (Str × Str)
  | [] => none
  | e :: rest => (scanString rest).map fun p => (e :: p.1, p.2)

end

/-- Longest digit-character run. -/
def scanDigits : Str → Str × Str
  | [] => ([], [])
  | c :: rest =>
    if isDigitCh c then
      let p := scanDigits rest
      (c :: p.1, p.2)
    else ([], c :: rest)

/-- Decimal value of a digit run. -/
def parseNat (ds : Str) : Nat := ds.foldl (fun a c => a * 10 + digitVal c) 0

mutual

/-- Parse one JSON value; returns the value and the unconsumed rest. -/
def parseValue : Nat → Str → Option (Json × Str)
  | 0, _ => none
  | _ + 1, [] => none
  | fuel + 1, c :: rest =>
    if c = 'n' then (expectChars ('u' :: 'l' :: 'l' :: []) rest).map fun r => (.null, r)
    else if c = 't' then (expectChars ('r' :: 'u' :: 'e' :: []) rest).map fun r => (.bool true, r)
    else if c = 'f' then (expectChars ('a' :: 'l' :: 's' :: 'e' :: []) rest).map fun r => (.bool false, r)
    else if c = '"' then (scanString rest).map fun p => (.str p.1, p.2)
    else if c = '-' then
      match scanDigits rest with
      | ([], _) => none
      | (ds, r) => some (.num (-(parseNat ds : Int)), r)
    else if c = '[' then
      if headIs rest ']' then some (.arr [], rest.tail)
      else (parseElems fuel rest).map fun p => (.arr p.1, p.2)
    else if c = '{' then
      if headIs rest '}' then some (.obj [], rest.tail)
      else (parseFields fuel rest).map fun p => (.obj p.1, p.2)
    else if isDigitCh c then
      let p := scanDigits (c :: rest)
      some (.num (parseNat p.1), p.2)
    else none

/-- Parse the non-empty element list of an array, consuming the closing
bracket. -/
def parseElems : Nat → Str → Option (List Json × Str)
  | 0, _ => none
  | fuel + 1, input =>
    match parseValue fuel input with
    | none => none
    | some (v, r) =>
      if headIs r ',' then (parseElems fuel r.tail).map fun p => (v :: p.1, p.2)
      else if headIs r ']' then some ([v], r.tail)
      else none

/-- Parse the non-empty field list of an object, consuming the closing
brace. -/
def parseFields : Nat → Str → Option (List (Str × Json) × Str)
  | 0, _ => none
  | fuel + 1, input =>
    if headIs input '"' then
      match scanString input.tail with
      | none => none
      | some (k, r) =>
        if headIs r ':' then
          match parseValue fuel r.tail with
          | none => none
          | some (v, r2) =>
            if headIs r2 ',' then (parseFields fuel r2.tail).map fun p => ((k, v) :: p.1, p.2)
            else if headIs r2 '}' then some ([(k, v)], r2.tail)
            else none
        else none
    else none

end

/-- JSON whitespace. -/
def isWsCh (c : Char) : Bool :=
  c = ' ' ∨ c = '\n' ∨ c = '\t' ∨ c = '\r'

/-- `JSON.parse(s)`: parse a full JSON text (model); trailing whitespace
is tolerated as `JSON.parse` does. -/
def jsonParse (s : Str) : Option Json :=
  match parseValue (s.length + 2) s with
  | some (v, rest) => if rest.all isWsCh then some v else none
  | none => none

/-! ## Printer–parser roundtrip (restricted to codec leaves)

The codec stringifies only leaf values (scalars or arrays — nested
objects are walked, not stringified), so the roundtrip is proved for
scalars and arrays of scalars. -/

/-- Scalar JSON values. -/
def isScalar : Json → Bool
  | .null => true
  | .bool _ => true
  | .num _ => true
  | .str _ => true
  | _ => false

/-- Values the codec may stringify per the round-trip claim: scalars or
arrays of scalars. -/
def leafOK : Json → Bool
  | .arr xs => xs.all isScalar
  | v => isScalar v

/-- The rest of the input does not start with a digit (so a number token
before it ends where the printer ended it). -/
def restHeadOK : Str → Bool
  | [] => true
  | c :: _ => !(isDigitCh c)

/-- Parser fuel sufficient for one codec leaf. -/
def fuelNeed : Json → Nat
  | .arr xs => xs.length + 3
  | _ => 1

/-! ## Errors (`src/errors.ts`) -/

inductive ErrorCode where
  | MISSING_ARTIFACT
  | MISSING_MASTER_KEY
  | DECRYPT_FAILED
  | INVALID_JSON
  | UNSUPPORTED_VERSION
  | KEY_NOT_FOUND
  | INVALID_ARTIFACT_FORMAT
deriving DecidableEq

/-- `RelicError` with its code and message. -/
structure RelicError where
  code : ErrorCode
  message : Str
deriving DecidableEq

/-- `decryptFailedError()`. -/
def decryptFailedError : RelicError :=
  ⟨.DECRYPT_FAILED, "Failed to decrypt artifact - wrong key or corrupted data".data⟩

/-- `invalidJsonError()`. -/
def invalidJsonError : RelicError :=
  ⟨.INVALID_JSON, "Decrypted artifact is not valid JSON".data⟩

/-- A thrown JS error: either a `RelicError` or a plain `Error` with a
message. -/
inductive Err where
  | relic (e : RelicError)
  | generic (msg : Str)
deriving DecidableEq

/-! ## Key derivation (`deriveKey` in `src/crypto.ts`)

Modelled platform primitive: PBKDF2-SHA256 through Web Crypto
`subtle.deriveKey` is idealized as the (injective) tuple of its inputs —
a faithful model of a collision-free KDF, which is all the repository
relies on. -/

/-- An AES key derived from (master key, salt, iterations). -/
structure DKey where
  masterKey : Str
  salt : List Nat
  iterations : Nat
deriving DecidableEq

/-- The ideal PBKDF2: injective in its inputs. -/
def pbkdf2 (masterKey : Str) (salt : List Nat) (iterations : Nat) : DKey :=
  ⟨masterKey, salt, iterations⟩

/-- The cache key string: `masterKey:base64(salt):iterations`. -/
def cacheKeyStr (masterKey : Str) (salt : List Nat) (iterations : Nat) : Str :=
  masterKey ++ ':' :: (encodeBase64 salt ++ ':' :: natChars iterations)

/-- Associative lookup in the `keyCache` map. -/
def cacheLookup : List (Str × DKey) → Str → Option DKey
  | [], _ => none
  | (s, k) :: rest, ck => if s = ck then some k else cacheLookup rest ck

/-- `deriveKey`: check the cache first, else derive with PBKDF2 and
store.  The process-global `keyCache` map is threaded explicitly. -/
def deriveKey (cache : List (Str × DKey)) (masterKey : Str) (salt : List Nat)
    (iterations : Nat) : DKey × List (Str × DKey) :=
  let ck := cacheKeyStr masterKey salt iterations
  match cacheLookup cache ck with
  | some k => (k, cache)
  | none => (pbkdf2 masterKey salt iterations,
      cache ++ [(ck, pbkdf2 masterKey salt iterations)])

/-- Cache consistency: every entry was stored by some derivation. -/
def cacheConsistent (cache : List (Str × DKey)) : Prop :=
  ∀ p ∈ cache, ∃ mk salt iter, (∀ x ∈ salt, x < 256) ∧
    p = (cacheKeyStr mk salt iter, pbkdf2 mk salt iter)

/-! ## AES-256-GCM (platform primitive, modelled)

`crypto.subtle.encrypt`/`decrypt` are modelled as the ideal
authenticated-encryption functionality: every encryption records its
(key, iv, plaintext) in a global log and returns a fresh ciphertext
handle; decryption succeeds exactly on recorded (key, iv, ciphertext)
triples and fails (AEAD tag mismatch) on everything else. -/

structure AeadEntry where
  key : DKey
  iv : List Nat
  ct : List Nat
  msg : List Nat
deriving DecidableEq

structure AeadWorld where
  log : List AeadEntry
deriving DecidableEq

/-- The empty encryption log. -/
def aead0 : AeadWorld := ⟨[]⟩

/-- `subtle.encrypt`: record the triple, return a fresh handle (byte
list, all bytes < 256). -/
def aeadEncrypt (w : AeadWorld) (key : DKey) (iv : List Nat) (msg : List Nat) :
    AeadWorld × List Nat :=
  let ct := natDigits 256 (w.log.length + 1)
  (⟨w.log ++ [⟨key, iv, ct, msg⟩]⟩, ct)

/-- Find the log entry with the given ciphertext. -/
def aeadFind : List AeadEntry → List Nat → Option AeadEntry
  | [], _ => none
  | e :: rest, ct => if e.ct = ct then some e else aeadFind rest ct

/-- `subtle.decrypt`: succeeds iff the (key, iv, ciphertext) triple was
recorded by an encryption. -/
def aeadDecrypt (w : AeadWorld) (key : DKey) (iv : List Nat) (ct : List Nat) :
    Option (List Nat) :=
  match aeadFind w.log ct with
  | some e => if e.key = key ∧ e.iv = iv then some e.msg else none
  | none => none

/-- Well-formed log suffix starting at position `i`: handles are the
base-256 digits of successive positions. -/
def wfLog : List AeadEntry → Nat → Prop
  | [], _ => True
  | e :: rest, i => e.ct = natDigits 256 (i + 1) ∧ wfLog rest (i + 1)

/-- Well-formed world. -/
def AeadWorld.wf (w : AeadWorld) : Prop := wfLog w.log 0

/-! ## Types and defaults (`src/types.ts`) -/

/-- `ENCRYPTED_VALUE_PREFIX` in the source: the token tag `"relic:v1:"`. -/
def ENCRYPTED_VALUE_TAG : Str := "relic:v1:".data

namespace Defaults

/-- Default PBKDF2 iteration count. -/
def KDF_ITERATIONS : Nat := 600000

/-- Salt length in bytes. -/
def SALT_BYTES : Nat := 16

/-- IV length in bytes. -/
def IV_BYTES : Nat := 12

end Defaults

/-! ## The per-value codec (`src/crypto.ts`)

`encryptValue` takes the randomness (`salt`, `iv`) drawn by
`randomBytes` and the AEAD log explicitly; `options` is the optional
iteration count.  Iteration counts are < 2^32 in every reachable token
(Web Crypto enforces the `unsigned long` range on PBKDF2 iterations and
`setUint32` stores mod 2^32).  The derivation cache is elided here; by
`deriveKey_transparent` the cached `deriveKey` returns exactly
`pbkdf2 masterKey salt iterations` against any consistent cache. -/

/-- `isEncryptedValue`: a string starting with the `relic:v1:` tag. -/
def isEncryptedValue : Json → Bool
  | .str s => ENCRYPTED_VALUE_TAG.isPrefixOf s
  | _ => false

/-- `encryptValue(masterKey, value, options)` with explicit randomness
and AEAD log. -/
def encryptValue (w : AeadWorld) (masterKey : Str) (value : Json) (options : Option Nat)
    (salt iv : List Nat) : AeadWorld × Str :=
  let iterations := options.getD Defaults.KDF_ITERATIONS
  let plaintext := stringifyCompact value
  let key := pbkdf2 masterKey salt iterations
  let enc := aeadEncrypt w key iv (textEncode plaintext)
  let iterBytes := beBytes4 iterations
  let combined := iterBytes ++ (salt ++ (iv ++ enc.2))
  (enc.1, ENCRYPTED_VALUE_TAG ++ encodeBase64 combined)

/-- `decryptValue(masterKey, encryptedString)`. -/
def decryptValue (w : AeadWorld) (masterKey : Str) (encryptedString : Str) : Except Err Json :=
  if isEncryptedValue (.str encryptedString) = false then
    .error (.generic "Not an encrypted value".data)
  else
    match decodeBase64 (encryptedString.drop ENCRYPTED_VALUE_TAG.length) with
    | none => .error (.generic "invalid base64".data)
    | some combined =>
      if combined.length < 4 then .error (.generic "DataView out of range".data)
      else
        let iterations := beDecode4 combined
        let salt := (combined.drop 4).take Defaults.SALT_BYTES
        let iv := (combined.drop (4 + Defaults.SALT_BYTES)).take Defaults.IV_BYTES
        let ct := combined.drop (4 + Defaults.SALT_BYTES + Defaults.IV_BYTES)
        let key := pbkdf2 masterKey salt iterations
        match aeadDecrypt w key iv ct with
        | none => .error (.relic decryptFailedError)
        | some plaintextBytes =>
          match jsonParse (textDecode plaintextBytes) with
          | none => .error (.relic decryptFailedError)
          | some v => .ok v

/-! ## Tree walker (`encryptSecrets` / `decryptSecrets` in `src/crypto.ts`)

`Object.entries`/`Object.fromEntries` are the field lists of `Json.obj`
(insertion order).  `Promise.all` resolves entries in order; the model
processes them sequentially, which yields the same result tree.
`randomBytes` is modelled by the supply `sup`: leaf number `k` draws
`(sup k).1` as its salt and `(sup k).2` as its IV. -/

/-- `encryptSecrets(masterKey, data, options)`: recursively encrypt all
values; nested objects recurse, everything else is a leaf.  Returns the
next leaf counter, the grown AEAD log and the encrypted tree. -/
def encryptSecrets (mk : Str) (opts : Option Nat) (sup : Nat → List Nat × List Nat) :
    Nat → AeadWorld → List (Str × Json) → Nat × AeadWorld × List (Str × Json)
  | k, w, [] => (k, w, [])
  | k, w, (key, Json.obj fs) :: rest =>
    let a := encryptSecrets mk opts sup k w fs
    let b := encryptSecrets mk opts sup a.1 a.2.1 rest
    (b.1, b.2.1, (key, Json.obj a.2.2) :: b.2.2)
  | k, w, (key, val) :: rest =>
    let e := encryptValue w mk val opts (sup k).1 (sup k).2
    let b := encryptSecrets mk opts sup (k + 1) e.1 rest
    (b.1, b.2.1, (key, Json.str e.2) :: b.2.2)

/-- `decryptSecrets(masterKey, data)`: decrypt tagged strings, recurse
into objects, pass everything else through unchanged.  Any leaf failure
fails the whole tree (`Promise.all` rejects). -/
def decryptSecrets (w : AeadWorld) (mk : Str) : List (Str × Json) → Except Err (List (Str × Json))
  | [] => .ok []
  | (key, Json.str s) :: rest =>
    if ENCRYPTED_VALUE_TAG.isPrefixOf s = true then
      match decryptValue w mk s, decryptSecrets w mk rest with
      | .ok d, .ok rs => .ok ((key, d) :: rs)
      | .error e, _ => .error e
      | _, .error e => .error e
    else
      match decryptSecrets w mk rest with
      | .ok rs => .ok ((key, Json.str s) :: rs)
      | .error e => .error e
  | (key, Json.obj fs) :: rest =>
    match decryptSecrets w mk fs, decryptSecrets w mk rest with
    | .ok ds, .ok rs => .ok ((key, Json.obj ds) :: rs)
    | .error e, _ => .error e
    | _, .error e => .error e
  | (key, val) :: rest =>
    match decryptSecrets w mk rest with
    | .ok rs => .ok ((key, val) :: rs)
    | .error e => .error e

/-- Every leaf of the tree is a scalar or an array of scalars (the
round-trip claim's tree class); objects recurse. -/
def treeLeavesOK : List (Str × Json) → Bool
  | [] => true
  | (_, Json.obj fs) :: rest => treeLeavesOK fs && treeLeavesOK rest
  | (_, v) :: rest => leafOK v && treeLeavesOK rest

/-- The randomness supply draws 16-byte salts and 12-byte IVs. -/
def supplyOK (sup : Nat → List Nat × List Nat) : Prop :=
  ∀ i, (sup i).1.length = 16 ∧ (∀ x ∈ (sup i).1, x < 256) ∧
    (sup i).2.length = 12 ∧ (∀ x ∈ (sup i).2, x < 256)

/-- Is the value a non-null, non-array JS object? -/
def isObjB : Json → Bool
  | .obj _ => true
  | _ => false

/-- The induction payload for the round trip: after encrypting `fs`
from counter `k` in world `w`, the world stays well-formed, only grows,
and the encrypted tree decrypts back to `fs` in every well-formed
extension. -/
def EncSpec (mk : Str) (opts : Option Nat) (sup : Nat → List Nat × List Nat)
    (fs : List (Str × Json)) (k : Nat) (w : AeadWorld) : Prop :=
  AeadWorld.wf (encryptSecrets mk opts sup k w fs).2.1 ∧
  (∃ t, (encryptSecrets mk opts sup k w fs).2.1.log = w.log ++ t) ∧
  ∀ w2 : AeadWorld, AeadWorld.wf w2 →
    (∃ t2, w2.log = (encryptSecrets mk opts sup k w fs).2.1.log ++ t2) →
    decryptSecrets w2 mk (encryptSecrets mk opts sup k w fs).2.2 = .ok fs

/-! ## Artifact serializer and payload functions (`src/crypto.ts`) -/

/-- The final serialization step of `encryptPayload`:
`JSON.stringify(encrypted, null, 2) + "\n"`. -/
def serializeArtifact (fs : List (Str × Json)) : Str :=
  stringifyPretty (Json.obj fs) 0 ++ ['\n']

/-- `encryptPayload(masterKey, plaintext, options)`: parse, encrypt the
tree, serialize.  Modelled for object payloads (a non-object payload is
a raw `JSON.parse`/`Object.entries` error path that no caller reaches:
every caller validates the payload is an object first). -/
def encryptPayload (w : AeadWorld) (mk : Str) (plaintext : Str) (opts : Option Nat)
    (sup : Nat → List Nat × List Nat) (k : Nat) : Except Err (Nat × AeadWorld × Str) :=
  match jsonParse plaintext with
  | some (Json.obj fs) =>
    let r := encryptSecrets mk opts sup k w fs
    .ok (r.1, r.2.1, serializeArtifact r.2.2)
  | some _ => .error (.generic "payload is not an object".data)
  | none => .error (.generic "Unexpected token in JSON".data)

/-- `decryptPayload(masterKey, artifactString)`: parse (rejecting
non-objects with `invalidJsonError`), decrypt every value, serialize. -/
def decryptPayload (w : AeadWorld) (mk : Str) (artifactString : Str) : Except Err Str :=
  match jsonParse artifactString with
  | none => .error (.relic invalidJsonError)
  | some (Json.obj fs) =>
    match decryptSecrets w mk fs with
    | .error e => .error e
    | .ok ds => .ok (serializeArtifact ds)
  | some _ => .error (.relic invalidJsonError)

/-- `decryptAndParse(masterKey, artifactString)`. -/
def decryptAndParse (w : AeadWorld) (mk : Str) (artifactString : Str) :
    Except Err (List (Str × Json)) :=
  match jsonParse artifactString with
  | none => .error (.relic invalidJsonError)
  | some (Json.obj fs) => decryptSecrets w mk fs
  | some _ => .error (.relic invalidJsonError)

/-! ## The CLI edit transaction (`editCommand` in `src/cli/index.ts`)

The run's external collaborators are inputs: the artifact file's
pre-state, the editor's outcome, and the content the editor leaves in
the temporary file.  The outcome records the process exit code, the
artifact file's final content, and whether the temporary plaintext file
was created and removed.  `process.exit(1)` terminates Node immediately
without unwinding the stack, so a `finally` block pending on the stack
does not run — the model encodes exactly that on the invalid-JSON
path. -/

/-- `validateAndFormatJson(content)`. -/
def validateAndFormatJson (content : Str) : Except Err Str :=
  match jsonParse content with
  | none => .error (.generic "Unexpected token in JSON".data)
  | some (Json.obj fs) => .ok (serializeArtifact fs)
  | some _ => .error (.generic "Secrets must be a JSON object".data)

/-- How the external editor invocation ended. -/
inductive EditorResult where
  | spawnError (msg : Str)
  | exited (code : Nat)
deriving DecidableEq

/-- The externally determined facts of one edit run. -/
structure EditInput where
  artifact : Option Str
  editorResult : EditorResult
  edited : Str

/-- Observable outcome of one edit run. -/
structure EditOutcome where
  exitCode : Nat
  artifact : Option Str
  tempCreated : Bool
  tempRemoved : Bool
deriving DecidableEq

/-- `editCommand` after the plaintext view is available. -/
def editAfterLoad (w : AeadWorld) (mk : Str) (opts : Option Nat)
    (sup : Nat → List Nat × List Nat) (k : Nat) (inp : EditInput)
    (plaintext : Str) : EditOutcome :=
  match validateAndFormatJson plaintext with
  | .error _ => ⟨1, inp.artifact, false, false⟩
  | .ok _ =>
    match inp.editorResult with
    | .spawnError _ => ⟨1, inp.artifact, true, true⟩
    | .exited (_ + 1) => ⟨1, inp.artifact, true, true⟩
    | .exited 0 =>
      match validateAndFormatJson inp.edited with
      | .error _ => ⟨1, inp.artifact, true, false⟩
      | .ok formatted2 =>
        match encryptPayload w mk formatted2 opts sup k with
        | .error _ => ⟨1, inp.artifact, true, true⟩
        | .ok r => ⟨0, some r.2.2, true, true⟩

/-- `editCommand(filePath, keyFile, iterations)`: load (decrypt) the
existing artifact or start from `{}`, run the editor on the temporary
plaintext file, validate, re-encrypt and write back. -/
def editCommand (w : AeadWorld) (mk : Str) (opts : Option Nat)
    (sup : Nat → List Nat × List Nat) (k : Nat) (inp : EditInput) : EditOutcome :=
  match inp.artifact with
  | some art =>
    match decryptPayload w mk art with
    | .error _ => ⟨1, inp.artifact, false, false⟩
    | .ok plaintext => editAfterLoad w mk opts sup k inp plaintext
  | none => editAfterLoad w mk opts sup k inp ('{' :: '}' :: [])

theorem digitsFuel_undigits (b : Nat) (hb : 2 ≤ b) :
    ∀ fuel n, n ≤ fuel → undigits b (digitsFuel b fuel n) = n := by
  intro fuel
  induction fuel with
  | zero => intro n hn; interval_cases n; simp [digitsFuel, undigits]
  | succ f ih =>
    intro n hn
    by_cases h0 : n = 0
    · simp [digitsFuel, h0, undigits]
    · have hdiv : n / b ≤ f := by
        have : n / b < n := Nat.div_lt_self (Nat.pos_of_ne_zero h0) hb
        omega
      simp only [digitsFuel, h0, if_false, undigits]
      rw [ih _ hdiv]
      exact Nat.mod_add_div n b

theorem undigits_natDigits (b : Nat) (hb : 2 ≤ b) (n : Nat) :
    undigits b (natDigits b n) = n :=
  digitsFuel_undigits b hb n n (Nat.le_refl n)

theorem natDigits_injective (b : Nat) (hb : 2 ≤ b) {m n : Nat}
    (h : natDigits b m = natDigits b n) : m = n := by
  have := undigits_natDigits b hb m
  rw [h, undigits_natDigits b hb n] at this
  exact this.symm

theorem digitsFuel_lt (b : Nat) (hb : 0 < b) :
    ∀ fuel n d, d ∈ digitsFuel b fuel n → d < b := by
  intro fuel
  induction fuel with
  | zero => intro n d hd; simp [digitsFuel] at hd
  | succ f ih =>
    intro n d hd
    by_cases h0 : n = 0
    · simp [digitsFuel, h0] at hd
    · simp only [digitsFuel, h0, if_false, List.mem_cons] at hd
      rcases hd with h | h
      · subst h; exact Nat.mod_lt _ hb
      · exact ih _ _ h

theorem natDigits_lt (b : Nat) (hb : 0 < b) (n : Nat) :
    ∀ d ∈ natDigits b n, d < b := fun d hd => digitsFuel_lt b hb n n d hd

theorem beBytes4_length (n : Nat) : (beBytes4 n).length = 4 := rfl

theorem beBytes4_lt (n : Nat) : ∀ d ∈ beBytes4 n, d < 256 := by
  intro d hd
  simp only [beBytes4, List.mem_cons, List.not_mem_nil, or_false] at hd
  rcases hd with h | h | h | h <;> subst h <;>
    first
      | exact Nat.mod_lt _ (by norm_num)

theorem beDecode4_beBytes4 (n : Nat) (h : n < 4294967296) :
    beDecode4 (beBytes4 n) = n := by
  simp only [beBytes4, beDecode4, Nat.mod_eq_of_lt h]
  omega

theorem beDecode4_beBytes4_append (n : Nat) (h : n < 4294967296) (rest : List Nat) :
    beDecode4 (beBytes4 n ++ rest) = n := by
  simp only [beBytes4, beDecode4, Nat.mod_eq_of_lt h, List.cons_append]
  omega

theorem d64_c64 : ∀ n, n < 64 → d64 (c64 n) = n := by decide

theorem c64_lt (n : Nat) (h : n < 64) : d64 (c64 n) < 64 := by
  rw [d64_c64 n h]; exact h

theorem c64_ne_colon (n : Nat) : c64 n ≠ ':' := by
  by_cases h : n < 64
  · revert n; decide
  · unfold c64
    rw [List.getD_eq_default]
    · decide
    · have : b64Table.length = 64 := by decide
      omega

theorem c64_ne_eq_sign (n : Nat) (h : n < 64) : c64 n ≠ '=' := by
  revert n; decide

theorem decodeBase64_encodeBase64 :
    ∀ bs : List Nat, (∀ x ∈ bs, x < 256) → decodeBase64 (encodeBase64 bs) = some bs
  | [], _ => rfl
  | [a], h => by
    have ha : a < 256 := h a (by simp)
    simp only [encodeBase64, decodeBase64, if_pos rfl, if_true]
    rw [d64_c64 (a / 4) (by omega), d64_c64 (a % 4 * 16) (by omega)]
    simp only [Option.some.injEq, List.cons.injEq, and_true]
    omega
  | [a, b], h => by
    have ha : a < 256 := h a (by simp)
    have hb : b < 256 := h b (by simp)
    simp only [encodeBase64, decodeBase64, if_pos rfl, if_true,
      if_neg (c64_ne_eq_sign (b % 16 * 4) (by omega))]
    rw [d64_c64 (a / 4) (by omega), d64_c64 (a % 4 * 16 + b / 16) (by omega),
      d64_c64 (b % 16 * 4) (by omega)]
    simp only [Option.some.injEq, List.cons.injEq, and_true]
    omega
  | a :: b :: c :: rest, h => by
    have ha : a < 256 := h a (by simp)
    have hb : b < 256 := h b (by simp)
    have hc : c < 256 := h c (by simp)
    have hrest : ∀ x ∈ rest, x < 256 := fun x hx => h x (by simp [hx])
    have ih := decodeBase64_encodeBase64 rest hrest
    simp only [encodeBase64, decodeBase64, if_neg (c64_ne_eq_sign (c % 64) (by omega)), ih,
      Option.map_some]
    rw [d64_c64 (a / 4) (by omega), d64_c64 (a % 4 * 16 + b / 16) (by omega),
      d64_c64 (b % 16 * 4 + c / 64) (by omega), d64_c64 (c % 64) (by omega)]
    simp only [Option.map_some', Option.some.injEq, List.cons.injEq, and_true]
    omega

theorem encodeBase64_injective {bs cs : List Nat}
    (hb : ∀ x ∈ bs, x < 256) (hc : ∀ x ∈ cs, x < 256)
    (h : encodeBase64 bs = encodeBase64 cs) : bs = cs := by
  have h1 := decodeBase64_encodeBase64 bs hb
  have h2 := decodeBase64_encodeBase64 cs hc
  rw [h, h2] at h1
  exact (Option.some.injEq _ _ ▸ h1).symm

theorem encodeBase64_ne_colon (bs : List Nat) : ∀ ch ∈ encodeBase64 bs, ch ≠ ':' := by
  induction bs using encodeBase64.induct with
  | case1 => simp [encodeBase64]
  | case2 a =>
    intro ch hch
    simp only [encodeBase64, List.mem_cons, List.not_mem_nil, or_false] at hch
    rcases hch with h | h | h | h <;> subst h <;> first | exact c64_ne_colon _ | decide
  | case3 a b =>
    intro ch hch
    simp only [encodeBase64, List.mem_cons, List.not_mem_nil, or_false] at hch
    rcases hch with h | h | h | h <;> subst h <;> first | exact c64_ne_colon _ | decide
  | case4 a b c rest ih =>
    intro ch hch
    simp only [encodeBase64, List.mem_cons] at hch
    rcases hch with h | h | h | h | h
    · subst h; exact c64_ne_colon _
    · subst h; exact c64_ne_colon _
    · subst h; exact c64_ne_colon _
    · subst h; exact c64_ne_colon _
    · exact ih ch h

theorem digitVal_digitChar (d : Nat) (h : d < 10) : digitVal (digitChar d) = d := by
  interval_cases d <;> rfl

theorem isDigitCh_digitChar (d : Nat) : isDigitCh (digitChar d) = true := by
  unfold digitChar
  split <;> rfl

/-- A digit character is none of the characters the value parser
dispatches on. -/
theorem digit_not_special (c : Char) (h : isDigitCh c = true) :
    c ≠ 'n' ∧ c ≠ 't' ∧ c ≠ 'f' ∧ c ≠ '"' ∧ c ≠ '-' ∧ c ≠ '[' ∧ c ≠ '{' ∧
      c ≠ ']' ∧ c ≠ '}' ∧ c ≠ ',' ∧ c ≠ ':' ∧ c ≠ '\n' := by
  simp only [isDigitCh, decide_eq_true_eq] at h
  rcases h with rfl | rfl | rfl | rfl | rfl | rfl | rfl | rfl | rfl | rfl <;> decide

theorem natChars_ne_nil (n : Nat) : natChars n ≠ [] := by
  unfold natChars
  split
  · simp
  · intro h
    rw [List.reverse_eq_nil_iff, List.map_eq_nil_iff] at h
    have h0 : ¬ n = 0 := by assumption
    unfold natDigits digitsFuel at h
    rcases n with _ | m
    · exact h0 rfl
    · simp [h0] at h

theorem natChars_digits (n : Nat) : ∀ c ∈ natChars n, isDigitCh c = true := by
  intro c hc
  unfold natChars at hc
  split at hc
  · simp at hc; subst hc; rfl
  · rw [List.mem_reverse, List.mem_map] at hc
    obtain ⟨d, _, rfl⟩ := hc
    exact isDigitCh_digitChar d

theorem textDecode_textEncode (s : Str) : textDecode (textEncode s) = s := by
  unfold textDecode textEncode
  rw [List.map_map]
  have : Char.ofNat ∘ Char.toNat = id := by
    funext c
    exact Char.ofNat_toNat c
  rw [this, List.map_id]

theorem expectChars_append (ps rest : Str) : expectChars ps (ps ++ rest) = some rest := by
  induction ps with
  | nil => rfl
  | cons p ps ih => simp [expectChars, ih]

theorem scanString_escape (s : Str) :
    ∀ rest, scanString (escapeStr s ++ '"' :: rest) = some (s, rest) := by
  induction s with
  | nil =>
    intro rest
    simp [escapeStr, scanString]
  | cons c cs ih =>
    intro rest
    by_cases hq : c = '"'
    · subst hq
      simp [escapeStr, escChar, scanString, scanEscaped, ih rest]
    · by_cases hb : c = '\\'
      · subst hb
        simp [escapeStr, escChar, scanString, scanEscaped, ih rest]
      · have hesc : escChar c = [c] := by
          unfold escChar
          split
          · simp at hq
          · simp at hb
          · rfl
        simp [escapeStr, hesc, scanString, hq, hb, ih rest]

theorem scanDigits_append (ds : Str) (hds : ∀ c ∈ ds, isDigitCh c = true) :
    ∀ rest, restHeadOK rest = true → scanDigits (ds ++ rest) = (ds, rest) := by
  induction ds with
  | nil =>
    intro rest hrest
    match rest with
    | [] => rfl
    | c :: t =>
      simp only [restHeadOK, Bool.not_eq_true'] at hrest
      simp [scanDigits, hrest]
  | cons d ds ih =>
    intro rest hrest
    have hd : isDigitCh d = true := hds d (by simp)
    have hds2 : ∀ c ∈ ds, isDigitCh c = true := fun c hc => hds c (by simp [hc])
    simp [scanDigits, hd, ih hds2 rest hrest]

theorem parseNat_go (ds : List Nat) (hds : ∀ d ∈ ds, d < 10) :
    ∀ a : Nat, (ds.reverse.map digitChar).foldl (fun x c => x * 10 + digitVal c) a =
      a * 10 ^ ds.length + undigits 10 ds := by
  induction ds with
  | nil => intro a; simp [undigits]
  | cons d ds ih =>
    intro a
    have hd : d < 10 := hds d (by simp)
    have hds2 : ∀ x ∈ ds, x < 10 := fun x hx => hds x (by simp [hx])
    simp only [List.reverse_cons, List.map_append, List.foldl_append, List.map_cons,
      List.foldl_cons, List.map_nil, List.foldl_nil, ih hds2 a, undigits, List.length_cons]
    rw [digitVal_digitChar d hd]
    ring

theorem parseNat_natChars (n : Nat) : parseNat (natChars n) = n := by
  unfold parseNat natChars
  split
  · subst n
    rfl
  · rw [← List.map_reverse]
    rw [parseNat_go (natDigits 10 n) (natDigits_lt 10 (by norm_num) n) 0]
    simp [undigits_natDigits 10 (by norm_num) n]

theorem restHeadOK_comma (t : Str) : restHeadOK (',' :: t) = true := rfl

theorem restHeadOK_rbrack (t : Str) : restHeadOK (']' :: t) = true := rfl

theorem headIs_cons (c x : Char) (t : Str) (h : ¬ x = c) : headIs (x :: t) c = false := by
  simp [headIs, h]

theorem parseValue_minus (f : Nat) (s r : Str) (ds : Str) (c : Char)
    (h : scanDigits s = (c :: ds, r)) :
    parseValue (f + 1) ('-' :: s) = some (.num (-(parseNat (c :: ds) : Int)), r) := by
  have hstep : parseValue (f + 1) ('-' :: s) =
      (match scanDigits s with
       | ([], _) => none
       | (ds, r) => some (Json.num (-(parseNat ds : Int)), r)) := rfl
  rw [hstep, h]

theorem parseValue_digit (f : Nat) (c : Char) (rest : Str) (h : isDigitCh c = true) :
    parseValue (f + 1) (c :: rest) =
      some (.num (parseNat (scanDigits (c :: rest)).1), (scanDigits (c :: rest)).2) := by
  obtain ⟨h1, h2, h3, h4, h5, h6, h7, _⟩ := digit_not_special c h
  simp only [parseValue, if_neg h1, if_neg h2, if_neg h3, if_neg h4, if_neg h5, if_neg h6,
    if_neg h7, h, if_true]

theorem natChars_cons (n : Nat) :
    ∃ c cs, natChars n = c :: cs ∧ isDigitCh c = true ∧ ∀ x ∈ cs, isDigitCh x = true := by
  cases hnc : natChars n with
  | nil => exact absurd hnc (natChars_ne_nil n)
  | cons c cs =>
    refine ⟨c, cs, rfl, ?_, ?_⟩
    · exact natChars_digits n c (by rw [hnc]; simp)
    · exact fun x hx => natChars_digits n x (by rw [hnc]; simp [hx])

theorem parse_intChars (i : Int) (f : Nat) (rest : Str) (hrest : restHeadOK rest = true) :
    parseValue (f + 1) (intChars i ++ rest) = some (.num i, rest) := by
  obtain ⟨c, cs, hc, hcd, hcsd⟩ := natChars_cons (if i < 0 then i.natAbs else i.toNat)
  unfold intChars
  split
  case isTrue hneg =>
    simp only [if_pos hneg] at hc
    have hall : ∀ x ∈ natChars i.natAbs, isDigitCh x = true := by
      rw [hc]; intro x hx
      rcases List.mem_cons.mp hx with rfl | hx
      · exact hcd
      · exact hcsd x hx
    have hsd := scanDigits_append (natChars i.natAbs) hall rest hrest
    have h2 : scanDigits (natChars i.natAbs ++ rest) = (c :: cs, rest) := by rw [hsd, hc]
    rw [List.cons_append, parseValue_minus f _ rest cs c h2]
    rw [← hc, parseNat_natChars]
    simp only [Option.some.injEq, Prod.mk.injEq, Json.num.injEq, and_true]
    omega
  case isFalse hneg =>
    simp only [if_neg hneg] at hc
    have hall : ∀ x ∈ natChars i.toNat, isDigitCh x = true := by
      rw [hc]; intro x hx
      rcases List.mem_cons.mp hx with rfl | hx
      · exact hcd
      · exact hcsd x hx
    have hsd := scanDigits_append (natChars i.toNat) hall rest hrest
    have h2 : scanDigits (c :: (cs ++ rest)) = (c :: cs, rest) := by
      rw [← List.cons_append, ← hc, hsd, hc]
    rw [hc, List.cons_append, parseValue_digit f c (cs ++ rest) hcd, h2]
    simp only [Option.some.injEq, Prod.mk.injEq, Json.num.injEq, and_true]
    rw [← hc, parseNat_natChars]
    omega

theorem parse_scalar (v : Json) (hv : isScalar v = true) (f : Nat) (rest : Str)
    (hrest : restHeadOK rest = true) :
    parseValue (f + 1) (stringifyCompact v ++ rest) = some (v, rest) := by
  cases v with
  | null =>
    have hstep : parseValue (f + 1) ('n' :: (('u' :: 'l' :: 'l' :: []) ++ rest)) =
        (expectChars ('u' :: 'l' :: 'l' :: []) (('u' :: 'l' :: 'l' :: []) ++ rest)).map
          fun r => (Json.null, r) := rfl
    rw [show stringifyCompact Json.null = 'n' :: ('u' :: 'l' :: 'l' :: []) from rfl]
    rw [List.cons_append, hstep, expectChars_append]
    rfl
  | bool b =>
    cases b with
    | true =>
      have hstep : parseValue (f + 1) ('t' :: (('r' :: 'u' :: 'e' :: []) ++ rest)) =
          (expectChars ('r' :: 'u' :: 'e' :: []) (('r' :: 'u' :: 'e' :: []) ++ rest)).map
            fun r => (Json.bool true, r) := rfl
      rw [show stringifyCompact (Json.bool true) = 't' :: ('r' :: 'u' :: 'e' :: []) from rfl]
      rw [List.cons_append, hstep, expectChars_append]
      rfl
    | false =>
      have hstep : parseValue (f + 1) ('f' :: (('a' :: 'l' :: 's' :: 'e' :: []) ++ rest)) =
          (expectChars ('a' :: 'l' :: 's' :: 'e' :: []) (('a' :: 'l' :: 's' :: 'e' :: []) ++ rest)).map
            fun r => (Json.bool false, r) := rfl
      rw [show stringifyCompact (Json.bool false) = 'f' :: ('a' :: 'l' :: 's' :: 'e' :: []) from rfl]
      rw [List.cons_append, hstep, expectChars_append]
      rfl
  | num i => exact parse_intChars i f rest hrest
  | str s =>
    have hstep : ∀ t : Str, parseValue (f + 1) ('"' :: t) =
        (scanString t).map fun p => (Json.str p.1, p.2) := fun t => rfl
    rw [show stringifyCompact (Json.str s) = '"' :: (escapeStr s ++ ['"']) from rfl]
    rw [List.cons_append, List.append_assoc,
      show (['"'] : Str) ++ rest = '"' :: rest from rfl, hstep, scanString_escape]
    rfl
  | arr xs => simp [isScalar] at hv
  | obj fs => simp [isScalar] at hv

theorem scalar_headIs_rbrack (v : Json) (hv : isScalar v = true) (t : Str) :
    headIs (stringifyCompact v ++ t) ']' = false := by
  cases v with
  | null => rfl
  | bool b => cases b <;> rfl
  | num i =>
    rw [show stringifyCompact (Json.num i) = intChars i from rfl]
    unfold intChars
    split
    · rfl
    · obtain ⟨c, cs, hc, hcd, -⟩ := natChars_cons i.toNat
      rw [hc, List.cons_append]
      exact headIs_cons ']' c _ (digit_not_special c hcd).2.2.2.2.2.2.2.1
  | str s => rfl
  | arr xs => simp [isScalar] at hv
  | obj fs => simp [isScalar] at hv

/-- One unfolding step of `parseElems`. -/
theorem parseElems_step (g : Nat) (inp : Str) : parseElems (g + 1) inp =
    (match parseValue g inp with
     | none => none
     | some (v, r) =>
       if headIs r ',' then (parseElems g r.tail).map fun p => (v :: p.1, p.2)
       else if headIs r ']' then some ([v], r.tail)
       else none) := rfl

theorem parse_elems :
    ∀ (xs : List Json) (x : Json), isScalar x = true →
      (∀ y ∈ xs, isScalar y = true) → ∀ (f : Nat) (rest : Str), restHeadOK rest = true →
      parseElems (f + xs.length + 2)
        (stringifyCompact x ++ (stringifyArrTail xs ++ ']' :: rest)) = some (x :: xs, rest) := by
  intro xs
  induction xs with
  | nil =>
    intro x hx hxs f rest hrest
    have he : f + ([] : List Json).length + 2 = (f + 1) + 1 := by simp
    rw [he]
    simp only [stringifyArrTail, List.nil_append]
    rw [parseElems_step, parse_scalar x hx f (']' :: rest) (restHeadOK_rbrack rest)]
    have hc1 : headIs (']' :: rest) ',' = false := rfl
    have hc2 : headIs (']' :: rest) ']' = true := rfl
    simp [hc1, hc2]
  | cons y ys ih =>
    intro x hx hxs f rest hrest
    have he : f + (y :: ys).length + 2 = ((f + ys.length + 1) + 1) + 1 := by
      simp
      omega
    rw [he]
    simp only [stringifyArrTail]
    rw [show (',' :: (stringifyCompact y ++ stringifyArrTail ys)) ++ ']' :: rest =
      ',' :: (stringifyCompact y ++ (stringifyArrTail ys ++ ']' :: rest)) from by
        simp [List.append_assoc]]
    rw [parseElems_step,
      parse_scalar x hx (f + ys.length + 1)
        (',' :: (stringifyCompact y ++ (stringifyArrTail ys ++ ']' :: rest))) rfl]
    have hc1 : ∀ t : Str, headIs (',' :: t) ',' = true := fun t => rfl
    simp only [hc1, List.tail_cons]
    have he2 : (f + ys.length + 1) + 1 = f + ys.length + 2 := by omega
    rw [he2, ih y (hxs y (by simp)) (fun z hz => hxs z (by simp [hz])) f rest hrest]
    norm_num

theorem parse_leaf (v : Json) (hv : leafOK v = true) (f : Nat) (rest : Str)
    (hrest : restHeadOK rest = true) :
    parseValue (f + fuelNeed v) (stringifyCompact v ++ rest) = some (v, rest) := by
  cases v with
  | null => exact parse_scalar Json.null rfl f rest hrest
  | bool b => exact parse_scalar (Json.bool b) (by cases b <;> rfl) f rest hrest
  | num i => exact parse_scalar (Json.num i) rfl f rest hrest
  | str s => exact parse_scalar (Json.str s) rfl f rest hrest
  | obj fs => simp [leafOK, isScalar] at hv
  | arr xs =>
    cases xs with
    | nil =>
      have hbr : ∀ g : Nat, parseValue (g + 1) ('[' :: ']' :: rest) =
          some (Json.arr [], rest) := fun g => rfl
      have he : f + fuelNeed (Json.arr []) = (f + 2) + 1 := by simp [fuelNeed]
      rw [show stringifyCompact (Json.arr []) ++ rest = '[' :: ']' :: rest from rfl, he, hbr]
    | cons x xs =>
      have hx : isScalar x = true := by
        simp only [leafOK, List.all_cons, Bool.and_eq_true] at hv
        exact hv.1
      have hxs : ∀ y ∈ xs, isScalar y = true := by
        simp only [leafOK, List.all_cons, Bool.and_eq_true, List.all_eq_true] at hv
        exact fun y hy => hv.2 y hy
      have he : f + fuelNeed (Json.arr (x :: xs)) = (((f + 1) + xs.length + 2)) + 1 := by
        simp [fuelNeed]
        omega
      have hbr : ∀ (g : Nat) (s : Str), parseValue (g + 1) ('[' :: s) =
          (if headIs s ']' then some (Json.arr [], s.tail)
           else (parseElems g s).map fun p => (Json.arr p.1, p.2)) := fun g s => rfl
      rw [show stringifyCompact (Json.arr (x :: xs)) ++ rest =
        '[' :: (stringifyCompact x ++ (stringifyArrTail xs ++ ']' :: rest)) from by
          simp [stringifyCompact, List.append_assoc], he, hbr]
      rw [scalar_headIs_rbrack x hx _]
      simp only [Bool.false_eq_true, if_false]
      rw [parse_elems xs x hx hxs (f + 1) rest hrest]
      rfl

theorem arrTail_length (xs : List Json) : xs.length ≤ (stringifyArrTail xs).length := by
  induction xs with
  | nil => simp [stringifyArrTail]
  | cons y ys ih =>
    simp only [stringifyArrTail, List.length_cons, List.length_append]
    omega

theorem fuelNeed_le (v : Json) : fuelNeed v ≤ (stringifyCompact v).length + 2 := by
  cases v with
  | arr xs =>
    cases xs with
    | nil => simp [fuelNeed, stringifyCompact]
    | cons x xs =>
      have := arrTail_length xs
      simp only [fuelNeed, stringifyCompact, List.length_cons, List.length_append,
        List.length_singleton]
      omega
  | null => simp [fuelNeed]
  | bool b => simp [fuelNeed]
  | num i => simp [fuelNeed]
  | str s => simp [fuelNeed]
  | obj fs => simp [fuelNeed]

/-- `JSON.parse` inverts compact `JSON.stringify` on codec leaves. -/
theorem jsonParse_stringifyCompact (v : Json) (hv : leafOK v = true) :
    jsonParse (stringifyCompact v) = some v := by
  unfold jsonParse
  have hle := fuelNeed_le v
  have hf : (stringifyCompact v).length + 2 =
      ((stringifyCompact v).length + 2 - fuelNeed v) + fuelNeed v := by omega
  rw [hf]
  have hp := parse_leaf v hv ((stringifyCompact v).length + 2 - fuelNeed v) [] rfl
  rw [List.append_nil] at hp
  rw [hp]
  rfl

theorem natChars_injective {m n : Nat} (h : natChars m = natChars n) : m = n := by
  have h1 := parseNat_natChars m
  rw [h, parseNat_natChars n] at h1
  exact h1.symm

theorem natChars_ne_colon (n : Nat) : ∀ c ∈ natChars n, c ≠ ':' := by
  intro c hc
  exact (digit_not_special c (natChars_digits n c hc)).2.2.2.2.2.2.2.2.2.2.1

/-- If the part before the separator is separator-free on both sides, a
separated concatenation determines its parts. -/
theorem sep_split_unique (sep : Char) :
    ∀ a1 a2 b1 b2 : Str, sep ∉ a1 → sep ∉ a2 →
      a1 ++ sep :: b1 = a2 ++ sep :: b2 → a1 = a2 ∧ b1 = b2 := by
  intro a1
  induction a1 with
  | nil =>
    intro a2 b1 b2 h1 h2 heq
    cases a2 with
    | nil => simpa using heq
    | cons c t =>
      simp only [List.nil_append, List.cons_append, List.cons.injEq] at heq
      obtain ⟨rfl, -⟩ := heq
      exact absurd (List.mem_cons_self sep t) h2
  | cons c t ih =>
    intro a2 b1 b2 h1 h2 heq
    cases a2 with
    | nil =>
      simp only [List.cons_append, List.nil_append, List.cons.injEq] at heq
      obtain ⟨rfl, -⟩ := heq
      exact absurd (List.mem_cons_self c t) h1
    | cons c2 t2 =>
      simp only [List.cons_append, List.cons.injEq] at heq
      obtain ⟨rfl, heq2⟩ := heq
      have := ih t2 b1 b2 (fun hm => h1 (List.mem_cons_of_mem _ hm))
        (fun hm => h2 (List.mem_cons_of_mem _ hm)) heq2
      exact ⟨by rw [this.1], this.2⟩

/-- The cache key string is injective over derivation tuples (salts are
byte lists). -/
theorem cacheKeyStr_injective
    (mk1 mk2 : Str) (s1 s2 : List Nat) (i1 i2 : Nat)
    (hs1 : ∀ x ∈ s1, x < 256) (hs2 : ∀ x ∈ s2, x < 256)
    (h : cacheKeyStr mk1 s1 i1 = cacheKeyStr mk2 s2 i2) :
    mk1 = mk2 ∧ s1 = s2 ∧ i1 = i2 := by
  have hrev : (natChars i1).reverse ++ ':' :: ((encodeBase64 s1).reverse ++ ':' :: mk1.reverse) =
      (natChars i2).reverse ++ ':' :: ((encodeBase64 s2).reverse ++ ':' :: mk2.reverse) := by
    have := congrArg List.reverse h
    simpa [cacheKeyStr, List.reverse_append] using this
  have hi1 : ':' ∉ (natChars i1).reverse := by
    simp only [List.mem_reverse]
    intro hm
    exact natChars_ne_colon i1 ':' hm rfl
  have hi2 : ':' ∉ (natChars i2).reverse := by
    simp only [List.mem_reverse]
    intro hm
    exact natChars_ne_colon i2 ':' hm rfl
  obtain ⟨hiter, hrest⟩ := sep_split_unique ':' _ _ _ _ hi1 hi2 hrev
  have hb1 : ':' ∉ (encodeBase64 s1).reverse := by
    simp only [List.mem_reverse]
    intro hm
    exact encodeBase64_ne_colon s1 ':' hm rfl
  have hb2 : ':' ∉ (encodeBase64 s2).reverse := by
    simp only [List.mem_reverse]
    intro hm
    exact encodeBase64_ne_colon s2 ':' hm rfl
  obtain ⟨hb64, hmk⟩ := sep_split_unique ':' _ _ _ _ hb1 hb2 hrest
  refine ⟨?_, ?_, ?_⟩
  · have := congrArg List.reverse hmk
    simpa using this
  · have := congrArg List.reverse hb64
    simp only [List.reverse_reverse] at this
    exact encodeBase64_injective hs1 hs2 this
  · have := congrArg List.reverse hiter
    simp only [List.reverse_reverse] at this
    exact natChars_injective this

theorem cacheConsistent_nil : cacheConsistent [] := by
  intro p hp
  simp at hp

theorem cacheLookup_mem (cache : List (Str × DKey)) (ck : Str) (k : DKey)
    (h : cacheLookup cache ck = some k) : (ck, k) ∈ cache := by
  induction cache with
  | nil => simp [cacheLookup] at h
  | cons p rest ih =>
    obtain ⟨s, v⟩ := p
    simp only [cacheLookup] at h
    split at h
    · rename_i hs
      simp only [Option.some.injEq] at h
      subst hs h
      simp
    · exact List.mem_cons_of_mem _ (ih h)

/-- With a consistent cache, a hit can only return the key PBKDF2 would
derive for that exact tuple. -/
theorem deriveKey_transparent (cache : List (Str × DKey)) (hc : cacheConsistent cache)
    (mk : Str) (salt : List Nat) (iter : Nat) (hs : ∀ x ∈ salt, x < 256) :
    (deriveKey cache mk salt iter).1 = pbkdf2 mk salt iter := by
  unfold deriveKey
  cases hl : cacheLookup cache (cacheKeyStr mk salt iter) with
  | none => simp only [hl]
  | some k =>
    simp only [hl]
    obtain ⟨mk2, s2, i2, hs2, hp⟩ := hc _ (cacheLookup_mem _ _ _ hl)
    simp only [Prod.mk.injEq] at hp
    obtain ⟨hck, hk⟩ := hp
    obtain ⟨rfl, rfl, rfl⟩ := cacheKeyStr_injective mk mk2 salt s2 iter i2 hs hs2 hck
    exact hk

/-- A derivation leaves the cache consistent. -/
theorem deriveKey_preserves (cache : List (Str × DKey)) (hc : cacheConsistent cache)
    (mk : Str) (salt : List Nat) (iter : Nat) (hs : ∀ x ∈ salt, x < 256) :
    cacheConsistent (deriveKey cache mk salt iter).2 := by
  unfold deriveKey
  cases hl : cacheLookup cache (cacheKeyStr mk salt iter) with
  | none =>
    simp only [hl]
    intro p hp
    rcases List.mem_append.mp hp with hp | hp
    · exact hc p hp
    · simp only [List.mem_singleton] at hp
      exact ⟨mk, salt, iter, hs, hp⟩
  | some k =>
    simp only [hl]
    exact hc

theorem aead0_wf : AeadWorld.wf aead0 := trivial

theorem wfLog_append : ∀ (l1 l2 : List AeadEntry) (i : Nat),
    wfLog (l1 ++ l2) i ↔ wfLog l1 i ∧ wfLog l2 (i + l1.length) := by
  intro l1
  induction l1 with
  | nil => intro l2 i; simp [wfLog]
  | cons e t ih =>
    intro l2 i
    constructor
    · intro h
      obtain ⟨h1, h2⟩ := h
      have h3 := (ih l2 (i + 1)).mp h2
      refine ⟨⟨h1, h3.1⟩, ?_⟩
      have e2 : i + (e :: t).length = i + 1 + t.length := by simp; omega
      rw [e2]
      exact h3.2
    · intro h
      obtain ⟨⟨h1, h2⟩, h3⟩ := h
      refine ⟨h1, (ih l2 (i + 1)).mpr ⟨h2, ?_⟩⟩
      have e2 : i + 1 + t.length = i + (e :: t).length := by simp; omega
      rw [e2]
      exact h3

/-- The entry after a prefix sits at the prefix's offset. -/
theorem wfLog_entry_ct (l1 : List AeadEntry) (e : AeadEntry) (l2 : List AeadEntry) (i : Nat)
    (h : wfLog (l1 ++ e :: l2) i) : e.ct = natDigits 256 (i + l1.length + 1) := by
  have := (wfLog_append l1 (e :: l2) i).mp h
  have h2 : wfLog (e :: l2) (i + l1.length) := this.2
  exact h2.1

theorem aeadFind_wf : ∀ (l1 : List AeadEntry) (e : AeadEntry) (l2 : List AeadEntry) (i : Nat),
    wfLog (l1 ++ e :: l2) i → aeadFind (l1 ++ e :: l2) e.ct = some e := by
  intro l1
  induction l1 with
  | nil =>
    intro e l2 i h
    simp [aeadFind]
  | cons e1 t ih =>
    intro e l2 i h
    have h1 : e1.ct = natDigits 256 (i + 1) := h.1
    have h2 : wfLog (t ++ e :: l2) (i + 1) := h.2
    have hect : e.ct = natDigits 256 (i + (t.length + 1) + 1) := by
      have := wfLog_entry_ct (e1 :: t) e l2 i h
      simpa [List.length_cons] using this
    have hne : e1.ct ≠ e.ct := by
      rw [h1, hect]
      intro hcontra
      have := natDigits_injective 256 (by norm_num) hcontra
      omega
    simp only [List.cons_append, aeadFind, if_neg hne]
    exact ih e l2 (i + 1) h2

/-- Decryption of a recorded entry succeeds in any well-formed world
whose log contains it. -/
theorem aeadDecrypt_mem (l1 : List AeadEntry) (e : AeadEntry) (l2 : List AeadEntry)
    (h : wfLog (l1 ++ e :: l2) 0) :
    aeadDecrypt ⟨l1 ++ e :: l2⟩ e.key e.iv e.ct = some e.msg := by
  unfold aeadDecrypt
  rw [aeadFind_wf l1 e l2 0 h]
  simp

theorem aeadEncrypt_wf (w : AeadWorld) (hw : w.wf) (key : DKey) (iv msg : List Nat) :
    (aeadEncrypt w key iv msg).1.wf := by
  unfold aeadEncrypt AeadWorld.wf
  simp only []
  rw [wfLog_append]
  exact ⟨hw, by simp [wfLog]⟩

theorem aeadEncrypt_ct_lt (w : AeadWorld) (key : DKey) (iv msg : List Nat) :
    ∀ x ∈ (aeadEncrypt w key iv msg).2, x < 256 :=
  fun x hx => natDigits_lt 256 (by norm_num) _ x hx

theorem isPre_append (l r : Str) : l.isPrefixOf (l ++ r) = true := by
  induction l with
  | nil => simp [List.isPrefixOf]
  | cons c t ih => simp [List.isPrefixOf, ih]

/-- Decrypting an encrypted leaf with the same master key recovers the
value, in any well-formed world extending the encryption. -/
theorem decryptValue_encryptValue
    (w : AeadWorld) (mk : Str) (v : Json) (hv : leafOK v = true)
    (opts : Option Nat) (hit : opts.getD Defaults.KDF_ITERATIONS < 4294967296)
    (salt iv : List Nat)
    (hsl : salt.length = 16) (hsb : ∀ x ∈ salt, x < 256)
    (hil : iv.length = 12) (hib : ∀ x ∈ iv, x < 256)
    (w2 : AeadWorld) (hw2 : w2.wf)
    (hext : ∃ t, w2.log = (encryptValue w mk v opts salt iv).1.log ++ t) :
    decryptValue w2 mk (encryptValue w mk v opts salt iv).2 = .ok v := by
  obtain ⟨t, ht⟩ := hext
  set n := opts.getD Defaults.KDF_ITERATIONS with hn
  set key := pbkdf2 mk salt n with hkey
  set msg := textEncode (stringifyCompact v) with hmsg
  set ct := natDigits 256 (w.log.length + 1) with hct
  set combined := beBytes4 n ++ (salt ++ (iv ++ ct)) with hcombined
  have hctlt : ∀ x ∈ ct, x < 256 := fun x hx => natDigits_lt 256 (by norm_num) _ x hx
  have hcb : ∀ x ∈ combined, x < 256 := by
    intro x hx
    rw [hcombined] at hx
    rcases List.mem_append.mp hx with hx | hx
    · exact beBytes4_lt n x hx
    · rcases List.mem_append.mp hx with hx | hx
      · exact hsb x hx
      · rcases List.mem_append.mp hx with hx | hx
        · exact hib x hx
        · exact hctlt x hx
  have henc2 : (encryptValue w mk v opts salt iv).2 =
      ENCRYPTED_VALUE_TAG ++ encodeBase64 combined := rfl
  have hlog : w2.log = w.log ++ (⟨key, iv, ct, msg⟩ : AeadEntry) :: t := by
    rw [ht]
    have : (encryptValue w mk v opts salt iv).1.log =
        w.log ++ [(⟨key, iv, ct, msg⟩ : AeadEntry)] := rfl
    rw [this, List.append_assoc, List.singleton_append]
  have hpre : isEncryptedValue (.str (ENCRYPTED_VALUE_TAG ++ encodeBase64 combined)) = true := by
    simp [isEncryptedValue, isPre_append]
  have hlen : ¬ combined.length < 4 := by
    rw [hcombined]
    simp [beBytes4]
  have hdrop4 : combined.drop 4 = salt ++ (iv ++ ct) := by
    rw [hcombined, show (4 : Nat) = (beBytes4 n).length from rfl, List.drop_left]
  have hsalt : (combined.drop 4).take Defaults.SALT_BYTES = salt := by
    rw [hdrop4, show Defaults.SALT_BYTES = salt.length from by rw [hsl]; rfl, List.take_left]
  have hcomb2 : combined = (beBytes4 n ++ salt) ++ (iv ++ ct) := by
    rw [hcombined, List.append_assoc]
  have hdrop20 : combined.drop (4 + Defaults.SALT_BYTES) = iv ++ ct := by
    rw [hcomb2, show 4 + Defaults.SALT_BYTES = (beBytes4 n ++ salt).length from by
      simp [beBytes4, hsl, Defaults.SALT_BYTES], List.drop_left]
  have hiv : (combined.drop (4 + Defaults.SALT_BYTES)).take Defaults.IV_BYTES = iv := by
    rw [hdrop20, show Defaults.IV_BYTES = iv.length from by rw [hil]; rfl, List.take_left]
  have hcomb3 : combined = ((beBytes4 n ++ salt) ++ iv) ++ ct := by
    rw [hcombined]
    simp [List.append_assoc]
  have hctdrop : combined.drop (4 + Defaults.SALT_BYTES + Defaults.IV_BYTES) = ct := by
    rw [hcomb3, show 4 + Defaults.SALT_BYTES + Defaults.IV_BYTES =
      ((beBytes4 n ++ salt) ++ iv).length from by
        simp [beBytes4, hsl, hil, Defaults.SALT_BYTES, Defaults.IV_BYTES], List.drop_left]
  have hiter : beDecode4 combined = n := by
    rw [hcombined]
    exact beDecode4_beBytes4_append n hit _
  have hdec : aeadDecrypt w2 key iv ct = some msg := by
    unfold aeadDecrypt
    have hwf2 : wfLog (w.log ++ (⟨key, iv, ct, msg⟩ : AeadEntry) :: t) 0 := by
      have := hw2
      unfold AeadWorld.wf at this
      rwa [hlog] at this
    have hfind := aeadFind_wf w.log (⟨key, iv, ct, msg⟩ : AeadEntry) t 0 hwf2
    rw [hlog, hfind]
    simp
  rw [henc2]
  unfold decryptValue
  rw [hpre]
  simp only [Bool.true_eq_false, if_false, List.drop_left,
    decodeBase64_encodeBase64 combined hcb, if_neg hlen, hiter, hsalt, hiv, hctdrop]
  rw [show aeadDecrypt w2 (pbkdf2 mk salt n) iv ct = some msg from hdec]
  simp only [hmsg, textDecode_textEncode, jsonParse_stringifyCompact v hv]

theorem encryptSecrets_nil (mk : Str) (opts : Option Nat) (sup : Nat → List Nat × List Nat)
    (k : Nat) (w : AeadWorld) : encryptSecrets mk opts sup k w [] = (k, w, []) := by
  simp [encryptSecrets]

theorem encryptSecrets_obj (mk : Str) (opts : Option Nat) (sup : Nat → List Nat × List Nat)
    (k : Nat) (w : AeadWorld) (key : Str) (fs rest : List (Str × Json)) :
    encryptSecrets mk opts sup k w ((key, Json.obj fs) :: rest) =
      (let a := encryptSecrets mk opts sup k w fs
       let b := encryptSecrets mk opts sup a.1 a.2.1 rest
       (b.1, b.2.1, (key, Json.obj a.2.2) :: b.2.2)) := by
  simp [encryptSecrets]

theorem encryptSecrets_leaf (mk : Str) (opts : Option Nat) (sup : Nat → List Nat × List Nat)
    (k : Nat) (w : AeadWorld) (key : Str) (val : Json) (rest : List (Str × Json))
    (hval : isObjB val = false) :
    encryptSecrets mk opts sup k w ((key, val) :: rest) =
      (let e := encryptValue w mk val opts (sup k).1 (sup k).2
       let b := encryptSecrets mk opts sup (k + 1) e.1 rest
       (b.1, b.2.1, (key, Json.str e.2) :: b.2.2)) := by
  have hside : ∀ fs : List (Str × Json), val = Json.obj fs → False := by
    intro fs hfs
    subst hfs
    simp [isObjB] at hval
  rw [encryptSecrets.eq_3 mk opts sup k w key val rest hside]

theorem decryptSecrets_nil (w : AeadWorld) (mk : Str) :
    decryptSecrets w mk [] = .ok [] := by
  simp [decryptSecrets]

theorem decryptSecrets_str (w : AeadWorld) (mk : Str) (key : Str) (s : Str)
    (rest : List (Str × Json)) :
    decryptSecrets w mk ((key, Json.str s) :: rest) =
      (if ENCRYPTED_VALUE_TAG.isPrefixOf s = true then
        match decryptValue w mk s, decryptSecrets w mk rest with
        | .ok d, .ok rs => .ok ((key, d) :: rs)
        | .error e, _ => .error e
        | _, .error e => .error e
      else
        match decryptSecrets w mk rest with
        | .ok rs => .ok ((key, Json.str s) :: rs)
        | .error e => .error e) := by
  simp [decryptSecrets]

theorem decryptSecrets_obj (w : AeadWorld) (mk : Str) (key : Str)
    (fs rest : List (Str × Json)) :
    decryptSecrets w mk ((key, Json.obj fs) :: rest) =
      (match decryptSecrets w mk fs, decryptSecrets w mk rest with
       | .ok ds, .ok rs => .ok ((key, Json.obj ds) :: rs)
       | .error e, _ => .error e
       | _, .error e => .error e) := by
  simp [decryptSecrets]

theorem decryptSecrets_passthrough (w : AeadWorld) (mk : Str) (key : Str) (val : Json)
    (rest : List (Str × Json)) (h1 : isObjB val = false)
    (h2 : isEncryptedValue val = false) :
    decryptSecrets w mk ((key, val) :: rest) =
      (match decryptSecrets w mk rest with
       | .ok rs => .ok ((key, val) :: rs)
       | .error e => .error e) := by
  cases val with
  | str s =>
    rw [decryptSecrets_str]
    simp only [isEncryptedValue] at h2
    simp [h2]
  | obj fs => simp [isObjB] at h1
  | null =>
    exact decryptSecrets.eq_4 w mk key Json.null rest (fun s h => by cases h) (fun fs h => by cases h)
  | bool b =>
    exact decryptSecrets.eq_4 w mk key (Json.bool b) rest (fun s h => by cases h) (fun fs h => by cases h)
  | num n =>
    exact decryptSecrets.eq_4 w mk key (Json.num n) rest (fun s h => by cases h) (fun fs h => by cases h)
  | arr xs =>
    exact decryptSecrets.eq_4 w mk key (Json.arr xs) rest (fun s h => by cases h) (fun fs h => by cases h)

theorem encryptValue_wf (w : AeadWorld) (hw : w.wf) (mk : Str) (v : Json)
    (opts : Option Nat) (salt iv : List Nat) :
    (encryptValue w mk v opts salt iv).1.wf :=
  aeadEncrypt_wf w hw _ _ _

theorem encryptValue_log (w : AeadWorld) (mk : Str) (v : Json)
    (opts : Option Nat) (salt iv : List Nat) :
    ∃ t, (encryptValue w mk v opts salt iv).1.log = w.log ++ t :=
  ⟨_, rfl⟩

theorem encryptValue_tagged (w : AeadWorld) (mk : Str) (v : Json)
    (opts : Option Nat) (salt iv : List Nat) :
    ENCRYPTED_VALUE_TAG.isPrefixOf (encryptValue w mk v opts salt iv).2 = true :=
  isPre_append _ _

theorem treeLeavesOK_leaf (key : Str) (val : Json) (rest : List (Str × Json))
    (h : isObjB val = false) :
    treeLeavesOK ((key, val) :: rest) = (leafOK val && treeLeavesOK rest) := by
  have hside : ∀ fs : List (Str × Json), val = Json.obj fs → False := by
    intro fs hfs
    subst hfs
    simp [isObjB] at h
  exact treeLeavesOK.eq_3 key val rest hside

theorem encSpec_leaf_step (mk : Str) (opts : Option Nat)
    (hit : opts.getD Defaults.KDF_ITERATIONS < 4294967296)
    (sup : Nat → List Nat × List Nat) (hsup : supplyOK sup)
    (key : Str) (val : Json) (hvo : isObjB val = false) (hval : leafOK val = true)
    (rest : List (Str × Json)) (k : Nat) (w : AeadWorld) (hw : w.wf)
    (hrest : ∀ (k2 : Nat) (w2 : AeadWorld), w2.wf → EncSpec mk opts sup rest k2 w2) :
    EncSpec mk opts sup ((key, val) :: rest) k w := by
  unfold EncSpec
  rw [encryptSecrets_leaf mk opts sup k w key val rest hvo]
  simp only []
  have hewf : (encryptValue w mk val opts (sup k).1 (sup k).2).1.wf :=
    encryptValue_wf w hw mk val opts _ _
  have hb := hrest (k + 1) (encryptValue w mk val opts (sup k).1 (sup k).2).1 hewf
  unfold EncSpec at hb
  obtain ⟨hbwf, ⟨t2, ht2⟩, hbdec⟩ := hb
  refine ⟨hbwf, ?_, ?_⟩
  · obtain ⟨t1, ht1⟩ := encryptValue_log w mk val opts (sup k).1 (sup k).2
    exact ⟨t1 ++ t2, by rw [ht2, ht1, List.append_assoc]⟩
  · intro w2 hw2 hext
    rw [decryptSecrets_str,
      if_pos (encryptValue_tagged w mk val opts (sup k).1 (sup k).2)]
    obtain ⟨hs1, hs2, hs3, hs4⟩ := hsup k
    have hdv : decryptValue w2 mk (encryptValue w mk val opts (sup k).1 (sup k).2).2 =
        .ok val := by
      obtain ⟨t3, ht3⟩ := hext
      exact decryptValue_encryptValue w mk val hval opts hit (sup k).1 (sup k).2
        hs1 hs2 hs3 hs4 w2 hw2 ⟨t2 ++ t3, by rw [ht3, ht2, List.append_assoc]⟩
    rw [hdv, hbdec w2 hw2 hext]

theorem encSpec_holds (mk : Str) (opts : Option Nat)
    (hit : opts.getD Defaults.KDF_ITERATIONS < 4294967296)
    (sup : Nat → List Nat × List Nat) (hsup : supplyOK sup) :
    ∀ (fs : List (Str × Json)), treeLeavesOK fs = true →
      ∀ (k : Nat) (w : AeadWorld), w.wf → EncSpec mk opts sup fs k w
  | [], _, k, w, hw => by
    unfold EncSpec
    rw [encryptSecrets_nil]
    exact ⟨hw, ⟨[], by simp⟩, fun w2 _ _ => by rw [decryptSecrets_nil]⟩
  | (key, Json.obj fs2) :: rest, htree, k, w, hw => by
    have ht2 : treeLeavesOK fs2 = true ∧ treeLeavesOK rest = true := by
      have := treeLeavesOK.eq_2 key fs2 rest
      rw [this] at htree
      exact Bool.and_eq_true_iff.mp htree
    have IH1 := encSpec_holds mk opts hit sup hsup fs2 ht2.1 k w hw
    unfold EncSpec at IH1
    obtain ⟨h1wf, ⟨t1, ht1⟩, h1dec⟩ := IH1
    have IH2 := encSpec_holds mk opts hit sup hsup rest ht2.2
      (encryptSecrets mk opts sup k w fs2).1 (encryptSecrets mk opts sup k w fs2).2.1 h1wf
    unfold EncSpec at IH2
    obtain ⟨h2wf, ⟨t2, ht2b⟩, h2dec⟩ := IH2
    unfold EncSpec
    rw [encryptSecrets_obj]
    simp only []
    refine ⟨h2wf, ⟨t1 ++ t2, by rw [ht2b, ht1, List.append_assoc]⟩, ?_⟩
    intro w2 hw2 hext
    rw [decryptSecrets_obj]
    have hd1 : decryptSecrets w2 mk (encryptSecrets mk opts sup k w fs2).2.2 = .ok fs2 := by
      obtain ⟨t3, ht3⟩ := hext
      exact h1dec w2 hw2 ⟨t2 ++ t3, by rw [ht3, ht2b, List.append_assoc]⟩
    have hd2 : decryptSecrets w2 mk
        (encryptSecrets mk opts sup (encryptSecrets mk opts sup k w fs2).1
          (encryptSecrets mk opts sup k w fs2).2.1 rest).2.2 = .ok rest :=
      h2dec w2 hw2 hext
    rw [hd1, hd2]
  | (key, Json.null) :: rest, htree, k, w, hw => by
    rw [treeLeavesOK_leaf key Json.null rest rfl] at htree
    obtain ⟨h1, h2⟩ := Bool.and_eq_true_iff.mp htree
    exact encSpec_leaf_step mk opts hit sup hsup key Json.null rfl h1 rest k w hw
      (fun k2 w2 hw2 => encSpec_holds mk opts hit sup hsup rest h2 k2 w2 hw2)
  | (key, Json.bool b) :: rest, htree, k, w, hw => by
    rw [treeLeavesOK_leaf key (Json.bool b) rest rfl] at htree
    obtain ⟨h1, h2⟩ := Bool.and_eq_true_iff.mp htree
    exact encSpec_leaf_step mk opts hit sup hsup key (Json.bool b) rfl h1 rest k w hw
      (fun k2 w2 hw2 => encSpec_holds mk opts hit sup hsup rest h2 k2 w2 hw2)
  | (key, Json.num n) :: rest, htree, k, w, hw => by
    rw [treeLeavesOK_leaf key (Json.num n) rest rfl] at htree
    obtain ⟨h1, h2⟩ := Bool.and_eq_true_iff.mp htree
    exact encSpec_leaf_step mk opts hit sup hsup key (Json.num n) rfl h1 rest k w hw
      (fun k2 w2 hw2 => encSpec_holds mk opts hit sup hsup rest h2 k2 w2 hw2)
  | (key, Json.str s) :: rest, htree, k, w, hw => by
    rw [treeLeavesOK_leaf key (Json.str s) rest rfl] at htree
    obtain ⟨h1, h2⟩ := Bool.and_eq_true_iff.mp htree
    exact encSpec_leaf_step mk opts hit sup hsup key (Json.str s) rfl h1 rest k w hw
      (fun k2 w2 hw2 => encSpec_holds mk opts hit sup hsup rest h2 k2 w2 hw2)
  | (key, Json.arr xs) :: rest, htree, k, w, hw => by
    rw [treeLeavesOK_leaf key (Json.arr xs) rest rfl] at htree
    obtain ⟨h1, h2⟩ := Bool.and_eq_true_iff.mp htree
    exact encSpec_leaf_step mk opts hit sup hsup key (Json.arr xs) rfl h1 rest k w hw
      (fun k2 w2 hw2 => encSpec_holds mk opts hit sup hsup rest h2 k2 w2 hw2)

theorem beBytes4_beDecode4 (l : List Nat) (hl : l.length = 4) (hb : ∀ x ∈ l, x < 256) :
    beBytes4 (beDecode4 l) = l := by
  match l, hl with
  | [b0, b1, b2, b3], _ =>
    have h0 : b0 < 256 := hb b0 (by simp)
    have h1 : b1 < 256 := hb b1 (by simp)
    have h2 : b2 < 256 := hb b2 (by simp)
    have h3 : b3 < 256 := hb b3 (by simp)
    simp only [beDecode4, beBytes4, List.cons.injEq, and_true]
    refine ⟨?_, ?_, ?_, ?_⟩ <;> omega

theorem beDecode4_append_eq (l rest : List Nat) (hl : l.length = 4) :
    beDecode4 (l ++ rest) = beDecode4 l := by
  match l, hl with
  | [b0, b1, b2, b3], _ => rfl

/-- `decryptValue` on a structurally well-formed token reduces to ideal
AEAD decryption of its sections. -/
theorem decryptValue_as_aead (w2 : AeadWorld) (mk2 : Str) (i4 s v c : List Nat)
    (hl4 : i4.length = 4) (hl16 : s.length = 16) (hl12 : v.length = 12)
    (hb4 : ∀ x ∈ i4, x < 256) (hbs : ∀ x ∈ s, x < 256) (hbv : ∀ x ∈ v, x < 256)
    (hbc : ∀ x ∈ c, x < 256) :
    decryptValue w2 mk2 (ENCRYPTED_VALUE_TAG ++ encodeBase64 (i4 ++ (s ++ (v ++ c)))) =
      (match aeadDecrypt w2 (pbkdf2 mk2 s (beDecode4 (i4 ++ (s ++ (v ++ c))))) v c with
       | none => .error (.relic decryptFailedError)
       | some pb =>
         match jsonParse (textDecode pb) with
         | none => .error (.relic decryptFailedError)
         | some jv => .ok jv) := by
  set combined := i4 ++ (s ++ (v ++ c)) with hcombined
  have hcb : ∀ x ∈ combined, x < 256 := by
    intro x hx
    rw [hcombined] at hx
    rcases List.mem_append.mp hx with hx | hx
    · exact hb4 x hx
    · rcases List.mem_append.mp hx with hx | hx
      · exact hbs x hx
      · rcases List.mem_append.mp hx with hx | hx
        · exact hbv x hx
        · exact hbc x hx
  have hpre : isEncryptedValue (.str (ENCRYPTED_VALUE_TAG ++ encodeBase64 combined)) = true := by
    simp [isEncryptedValue, isPre_append]
  have hlen : ¬ combined.length < 4 := by
    rw [hcombined]
    simp [List.length_append, hl4]
  have hdrop4 : combined.drop 4 = s ++ (v ++ c) := by
    rw [hcombined, show (4 : Nat) = i4.length from hl4.symm, List.drop_left]
  have hsalt : (combined.drop 4).take Defaults.SALT_BYTES = s := by
    rw [hdrop4, show Defaults.SALT_BYTES = s.length from by rw [hl16]; rfl, List.take_left]
  have hcomb2 : combined = (i4 ++ s) ++ (v ++ c) := by
    rw [hcombined, List.append_assoc]
  have hdrop20 : combined.drop (4 + Defaults.SALT_BYTES) = v ++ c := by
    rw [hcomb2, show 4 + Defaults.SALT_BYTES = (i4 ++ s).length from by
      simp [hl4, hl16, Defaults.SALT_BYTES], List.drop_left]
  have hiv : (combined.drop (4 + Defaults.SALT_BYTES)).take Defaults.IV_BYTES = v := by
    rw [hdrop20, show Defaults.IV_BYTES = v.length from by rw [hl12]; rfl, List.take_left]
  have hcomb3 : combined = ((i4 ++ s) ++ v) ++ c := by
    rw [hcombined]
    simp [List.append_assoc]
  have hctdrop : combined.drop (4 + Defaults.SALT_BYTES + Defaults.IV_BYTES) = c := by
    rw [hcomb3, show 4 + Defaults.SALT_BYTES + Defaults.IV_BYTES =
      ((i4 ++ s) ++ v).length from by
        simp [hl4, hl16, hl12, Defaults.SALT_BYTES, Defaults.IV_BYTES], List.drop_left]
  unfold decryptValue
  rw [hpre]
  simp only [Bool.true_eq_false, if_false, List.drop_left,
    decodeBase64_encodeBase64 combined hcb, if_neg hlen, hsalt, hiv, hctdrop]

theorem intChars_last (i : Int) :
    ∃ (p : Str) (c : Char), intChars i = p ++ [c] ∧ c ≠ '\n' := by
  unfold intChars
  split
  case isTrue h =>
    have hne := natChars_ne_nil i.natAbs
    have hsplit := List.dropLast_append_getLast hne
    refine ⟨'-' :: (natChars i.natAbs).dropLast, (natChars i.natAbs).getLast hne, ?_, ?_⟩
    · rw [List.cons_append, hsplit]
    · have hd := natChars_digits i.natAbs _ (List.getLast_mem hne)
      exact (digit_not_special _ hd).2.2.2.2.2.2.2.2.2.2.2
  case isFalse h =>
    have hne := natChars_ne_nil i.toNat
    have hsplit := List.dropLast_append_getLast hne
    refine ⟨(natChars i.toNat).dropLast, (natChars i.toNat).getLast hne, hsplit.symm, ?_⟩
    have hd := natChars_digits i.toNat _ (List.getLast_mem hne)
    exact (digit_not_special _ hd).2.2.2.2.2.2.2.2.2.2.2

/-- The pretty printer's output never ends in a newline. -/
theorem stringifyPretty_last (v : Json) (d : Nat) :
    ∃ (p : Str) (c : Char), stringifyPretty v d = p ++ [c] ∧ c ≠ '\n' := by
  cases v with
  | null => exact ⟨('n' :: 'u' :: 'l' :: []), 'l', rfl, by decide⟩
  | bool b =>
    cases b with
    | true => exact ⟨('t' :: 'r' :: 'u' :: []), 'e', rfl, by decide⟩
    | false => exact ⟨('f' :: 'a' :: 'l' :: 's' :: []), 'e', rfl, by decide⟩
  | num i =>
    obtain ⟨p, c, hpc, hc⟩ := intChars_last i
    exact ⟨p, c, by rw [show stringifyPretty (Json.num i) d = intChars i from rfl, hpc], hc⟩
  | str s =>
    refine ⟨'"' :: escapeStr s, '"', ?_, by decide⟩
    rw [show stringifyPretty (Json.str s) d = '"' :: (escapeStr s ++ ['"']) from rfl]
    simp
  | arr xs =>
    cases xs with
    | nil => exact ⟨['['], ']', rfl, by decide⟩
    | cons x t =>
      refine ⟨'[' :: '\n' :: (indentChars (d + 1) ++ stringifyPretty x (d + 1) ++
        prettyArrTail t (d + 1) ++ '\n' :: indentChars d), ']', ?_, by decide⟩
      rw [show stringifyPretty (Json.arr (x :: t)) d =
        '[' :: '\n' :: (indentChars (d + 1) ++ stringifyPretty x (d + 1) ++
          prettyArrTail t (d + 1) ++ '\n' :: (indentChars d ++ [']'])) from rfl]
      simp [List.append_assoc]
  | obj fs =>
    cases fs with
    | nil => exact ⟨['{'], '}', rfl, by decide⟩
    | cons f t =>
      refine ⟨'{' :: '\n' :: (indentChars (d + 1) ++ prettyField f (d + 1) ++
        prettyObjTail t (d + 1) ++ '\n' :: indentChars d), '}', ?_, by decide⟩
      rw [show stringifyPretty (Json.obj (f :: t)) d =
        '{' :: '\n' :: (indentChars (d + 1) ++ prettyField f (d + 1) ++
          prettyObjTail t (d + 1) ++ '\n' :: (indentChars d ++ ['}'])) from rfl]
      simp [List.append_assoc]

/-! ## Claim theorems -/

/-- C1: For every finitely nested secrets tree whose leaves are JSON
scalars (string, number, boolean, null) or arrays of such, every master
key and every iteration count (in the representable `unsigned long`
range), `decryptSecrets(K, encryptSecrets(K, T, opts))` returns a tree
deeply equal to `T`: every leaf value and its JSON type are reproduced
exactly, and a key maps to a sub-tree in the result exactly when it does
in `T` (the result equals `T`). -/
theorem claim_roundtrip_tree (mk : Str) (opts : Option Nat)
    (hit : opts.getD Defaults.KDF_ITERATIONS < 4294967296)
    (sup : Nat → List Nat × List Nat) (hsup : supplyOK sup)
    (fs : List (Str × Json)) (htree : treeLeavesOK fs = true) :
    decryptSecrets (encryptSecrets mk opts sup 0 aead0 fs).2.1 mk
      (encryptSecrets mk opts sup 0 aead0 fs).2.2 = .ok fs := by
  have h := encSpec_holds mk opts hit sup hsup fs htree 0 aead0 aead0_wf
  unfold EncSpec at h
  exact h.2.2 _ h.1 ⟨[], by simp⟩

theorem claim_roundtrip_tree_witness :
    decryptSecrets
      (encryptSecrets "k".data none (fun _ => (List.replicate 16 0, List.replicate 12 0))
        0 aead0 [("a".data, Json.str "x".data)]).2.1 "k".data
      (encryptSecrets "k".data none (fun _ => (List.replicate 16 0, List.replicate 12 0))
        0 aead0 [("a".data, Json.str "x".data)]).2.2 =
      .ok [("a".data, Json.str "x".data)] := by
  apply claim_roundtrip_tree
  · decide
  · intro i
    refine ⟨rfl, ?_, rfl, ?_⟩ <;> intro x hx <;> rw [List.eq_of_mem_replicate hx] <;> decide
  · rw [treeLeavesOK_leaf "a".data (Json.str "x".data) [] rfl, treeLeavesOK.eq_1]
    rfl

/-- C6 (amended): For every input text that is either not parseable as
JSON or whose top-level value is not an object, `decryptPayload` and
`decryptAndParse` fail with the `InvalidJson` error kind
(`RELIC_ERR_INVALID_JSON`) and never proceed to decrypt any leaf. -/
theorem claim_parse_error_invalid_json (w : AeadWorld) (mk : Str) (s : Str)
    (hbad : jsonParse s = none ∨ ∃ d, jsonParse s = some d ∧ isObjB d = false) :
    decryptPayload w mk s = .error (.relic invalidJsonError) ∧
    decryptAndParse w mk s = .error (.relic invalidJsonError) ∧
    invalidJsonError.code = ErrorCode.INVALID_JSON := by
  rcases hbad with h | ⟨d, hd, hobj⟩
  · unfold decryptPayload decryptAndParse
    rw [h]
    exact ⟨rfl, rfl, rfl⟩
  · unfold decryptPayload decryptAndParse
    rw [hd]
    cases d with
    | obj fs => simp [isObjB] at hobj
    | null => exact ⟨rfl, rfl, rfl⟩
    | bool b => exact ⟨rfl, rfl, rfl⟩
    | num n => exact ⟨rfl, rfl, rfl⟩
    | str s2 => exact ⟨rfl, rfl, rfl⟩
    | arr xs => exact ⟨rfl, rfl, rfl⟩

theorem claim_parse_error_invalid_json_witness :
    decryptPayload aead0 "k".data "not json".data = .error (.relic invalidJsonError) ∧
    decryptAndParse aead0 "k".data "not json".data = .error (.relic invalidJsonError) ∧
    invalidJsonError.code = ErrorCode.INVALID_JSON :=
  claim_parse_error_invalid_json aead0 "k".data "not json".data (Or.inl rfl)

/-- C6 (counterexample to the original): on unparseable input the error
kind is `RELIC_ERR_INVALID_JSON`, not the InvalidFormat kind
(`RELIC_ERR_INVALID_ARTIFACT_FORMAT`). -/
theorem claim_invalid_format_counterexample :
    (∃ e : RelicError, decryptPayload aead0 "k".data "not json".data = .error (.relic e) ∧
      e.code = ErrorCode.INVALID_JSON ∧ e.code ≠ ErrorCode.INVALID_ARTIFACT_FORMAT) := by
  refine ⟨invalidJsonError, by rfl, rfl, by decide⟩

/-- C7: The artifact serialization step of `encryptPayload` is
`JSON.stringify(tree, null, 2) + "\n"`: the pretty printer with 2-space
indentation and keys in insertion order (`stringifyPretty`), followed by
exactly one trailing newline — the pretty-printed part itself never ends
in a newline.  Serialization is a pure function of the tree, so
serializing the same tree twice yields identical text. -/
theorem claim_serialize_canonical (fs : List (Str × Json)) :
    serializeArtifact fs = stringifyPretty (Json.obj fs) 0 ++ ['\n'] ∧
    (∃ (p : Str) (c : Char), serializeArtifact fs = (p ++ [c]) ++ ['\n'] ∧ c ≠ '\n') := by
  refine ⟨rfl, ?_⟩
  obtain ⟨p, c, hpc, hc⟩ := stringifyPretty_last (Json.obj fs) 0
  exact ⟨p, c, by rw [serializeArtifact, hpc], hc⟩

/-- C8: `decryptSecrets` decodes exactly those string values carrying
the `relic:v1:` tag, recurses into exactly the object values, and passes
every other value through unchanged at its original key. -/
theorem claim_decrypt_dispatch (w : AeadWorld) (mk : Str) (key : Str) (val : Json)
    (rest : List (Str × Json)) :
    (isEncryptedValue val = true → ∃ s, val = Json.str s ∧
      decryptSecrets w mk ((key, val) :: rest) =
        (match decryptValue w mk s, decryptSecrets w mk rest with
         | .ok d, .ok rs => .ok ((key, d) :: rs)
         | .error e, _ => .error e
         | _, .error e => .error e)) ∧
    (∀ fs, val = Json.obj fs →
      decryptSecrets w mk ((key, val) :: rest) =
        (match decryptSecrets w mk fs, decryptSecrets w mk rest with
         | .ok ds, .ok rs => .ok ((key, Json.obj ds) :: rs)
         | .error e, _ => .error e
         | _, .error e => .error e)) ∧
    (isEncryptedValue val = false → isObjB val = false →
      decryptSecrets w mk ((key, val) :: rest) =
        (match decryptSecrets w mk rest with
         | .ok rs => .ok ((key, val) :: rs)
         | .error e => .error e)) := by
  refine ⟨?_, ?_, ?_⟩
  · intro henc
    cases val with
    | str s =>
      refine ⟨s, rfl, ?_⟩
      simp only [isEncryptedValue] at henc
      rw [decryptSecrets_str, if_pos henc]
    | null => simp [isEncryptedValue] at henc
    | bool b => simp [isEncryptedValue] at henc
    | num n => simp [isEncryptedValue] at henc
    | arr xs => simp [isEncryptedValue] at henc
    | obj fs => simp [isEncryptedValue] at henc
  · intro fs hfs
    subst hfs
    exact decryptSecrets_obj w mk key fs rest
  · intro henc hobj
    exact decryptSecrets_passthrough w mk key val rest hobj henc

theorem claim_decrypt_dispatch_witness :
    decryptSecrets aead0 "k".data [("a".data, Json.num 5)] = .ok [("a".data, Json.num 5)] := by
  have h := (claim_decrypt_dispatch aead0 "k".data "a".data (Json.num 5) []).2.2 rfl rfl
  rw [h, decryptSecrets_nil]

/-- C5: `encryptValue(K, v, {iterations: n})` returns `"relic:v1:"`
followed by base64 of the concatenation of `n` as a 4-byte big-endian
unsigned integer, the 16-byte salt, the 12-byte IV, and the AES-256-GCM
ciphertext of the encoded `JSON.stringify(v)`, in that order: the token
carries the tag, and stripping it and de-base64-ing yields exactly that
concatenation, whose first four bytes decode big-endian back to `n`. -/
theorem claim_token_format (w : AeadWorld) (mk : Str) (v : Json) (opts : Option Nat)
    (hit : opts.getD Defaults.KDF_ITERATIONS < 4294967296)
    (salt iv : List Nat) (hsl : salt.length = 16) (hsb : ∀ x ∈ salt, x < 256)
    (hil : iv.length = 12) (hib : ∀ x ∈ iv, x < 256) :
    ENCRYPTED_VALUE_TAG.isPrefixOf (encryptValue w mk v opts salt iv).2 = true ∧
    decodeBase64 ((encryptValue w mk v opts salt iv).2.drop ENCRYPTED_VALUE_TAG.length) =
      some (beBytes4 (opts.getD Defaults.KDF_ITERATIONS) ++ (salt ++ (iv ++
        (aeadEncrypt w (pbkdf2 mk salt (opts.getD Defaults.KDF_ITERATIONS)) iv
          (textEncode (stringifyCompact v))).2))) ∧
    beDecode4 (beBytes4 (opts.getD Defaults.KDF_ITERATIONS) ++ (salt ++ (iv ++
      (aeadEncrypt w (pbkdf2 mk salt (opts.getD Defaults.KDF_ITERATIONS)) iv
        (textEncode (stringifyCompact v))).2))) = opts.getD Defaults.KDF_ITERATIONS ∧
    (beBytes4 (opts.getD Defaults.KDF_ITERATIONS)).length = 4 := by
  refine ⟨encryptValue_tagged w mk v opts salt iv, ?_,
    beDecode4_beBytes4_append _ hit _, rfl⟩
  have hcb : ∀ x ∈ beBytes4 (opts.getD Defaults.KDF_ITERATIONS) ++ (salt ++ (iv ++
      (aeadEncrypt w (pbkdf2 mk salt (opts.getD Defaults.KDF_ITERATIONS)) iv
        (textEncode (stringifyCompact v))).2)), x < 256 := by
    intro x hx
    rcases List.mem_append.mp hx with hx | hx
    · exact beBytes4_lt _ x hx
    · rcases List.mem_append.mp hx with hx | hx
      · exact hsb x hx
      · rcases List.mem_append.mp hx with hx | hx
        · exact hib x hx
        · exact aeadEncrypt_ct_lt w _ iv _ x hx
  rw [show (encryptValue w mk v opts salt iv).2 = ENCRYPTED_VALUE_TAG ++
    encodeBase64 (beBytes4 (opts.getD Defaults.KDF_ITERATIONS) ++ (salt ++ (iv ++
      (aeadEncrypt w (pbkdf2 mk salt (opts.getD Defaults.KDF_ITERATIONS)) iv
        (textEncode (stringifyCompact v))).2))) from rfl, List.drop_left]
  exact decodeBase64_encodeBase64 _ hcb

theorem claim_token_format_witness :
    ENCRYPTED_VALUE_TAG.isPrefixOf
      (encryptValue aead0 "k".data Json.null none (List.replicate 16 0)
        (List.replicate 12 0)).2 = true ∧
    decodeBase64 ((encryptValue aead0 "k".data Json.null none (List.replicate 16 0)
        (List.replicate 12 0)).2.drop ENCRYPTED_VALUE_TAG.length) =
      some (beBytes4 (Option.getD none Defaults.KDF_ITERATIONS) ++ (List.replicate 16 0 ++
        (List.replicate 12 0 ++
        (aeadEncrypt aead0 (pbkdf2 "k".data (List.replicate 16 0)
          (Option.getD none Defaults.KDF_ITERATIONS)) (List.replicate 12 0)
          (textEncode (stringifyCompact Json.null))).2))) ∧
    beDecode4 (beBytes4 (Option.getD none Defaults.KDF_ITERATIONS) ++ (List.replicate 16 0 ++
      (List.replicate 12 0 ++
      (aeadEncrypt aead0 (pbkdf2 "k".data (List.replicate 16 0)
        (Option.getD none Defaults.KDF_ITERATIONS)) (List.replicate 12 0)
        (textEncode (stringifyCompact Json.null))).2))) =
      Option.getD none Defaults.KDF_ITERATIONS ∧
    (beBytes4 (Option.getD none Defaults.KDF_ITERATIONS)).length = 4 := by
  apply claim_token_format
  · decide
  · rfl
  · intro x hx
    rw [List.eq_of_mem_replicate hx]
    decide
  · rfl
  · intro x hx
    rw [List.eq_of_mem_replicate hx]
    decide

/-- C9: Two calls of `encryptValue` with the same master key, value and
iteration count return different tokens whenever the freshly drawn salt
or IV bytes differ: the salt and IV are embedded verbatim in the token,
so distinct randomness forces distinct tokens. -/
theorem claim_token_uniqueness (w1 w2 : AeadWorld) (mk : Str) (v : Json) (opts : Option Nat)
    (salt1 iv1 salt2 iv2 : List Nat)
    (h1l : salt1.length = 16) (h1b : ∀ x ∈ salt1, x < 256)
    (h1il : iv1.length = 12) (h1ib : ∀ x ∈ iv1, x < 256)
    (h2l : salt2.length = 16) (h2b : ∀ x ∈ salt2, x < 256)
    (h2il : iv2.length = 12) (h2ib : ∀ x ∈ iv2, x < 256)
    (hne : salt1 ≠ salt2 ∨ iv1 ≠ iv2) :
    (encryptValue w1 mk v opts salt1 iv1).2 ≠ (encryptValue w2 mk v opts salt2 iv2).2 := by
  intro heq
  set n := opts.getD Defaults.KDF_ITERATIONS with hn
  set c1 := beBytes4 n ++ (salt1 ++ (iv1 ++
    (aeadEncrypt w1 (pbkdf2 mk salt1 n) iv1 (textEncode (stringifyCompact v))).2)) with hc1
  set c2 := beBytes4 n ++ (salt2 ++ (iv2 ++
    (aeadEncrypt w2 (pbkdf2 mk salt2 n) iv2 (textEncode (stringifyCompact v))).2)) with hc2
  have hb1 : ∀ x ∈ c1, x < 256 := by
    rw [hc1]
    intro x hx
    rcases List.mem_append.mp hx with hx | hx
    · exact beBytes4_lt _ x hx
    · rcases List.mem_append.mp hx with hx | hx
      · exact h1b x hx
      · rcases List.mem_append.mp hx with hx | hx
        · exact h1ib x hx
        · exact aeadEncrypt_ct_lt w1 _ iv1 _ x hx
  have hb2 : ∀ x ∈ c2, x < 256 := by
    rw [hc2]
    intro x hx
    rcases List.mem_append.mp hx with hx | hx
    · exact beBytes4_lt _ x hx
    · rcases List.mem_append.mp hx with hx | hx
      · exact h2b x hx
      · rcases List.mem_append.mp hx with hx | hx
        · exact h2ib x hx
        · exact aeadEncrypt_ct_lt w2 _ iv2 _ x hx
  have htok : ENCRYPTED_VALUE_TAG ++ encodeBase64 c1 = ENCRYPTED_VALUE_TAG ++ encodeBase64 c2 :=
    heq
  have henc : encodeBase64 c1 = encodeBase64 c2 := by
    have := congrArg (List.drop ENCRYPTED_VALUE_TAG.length) htok
    rwa [List.drop_left, List.drop_left] at this
  have hceq : c1 = c2 := encodeBase64_injective hb1 hb2 henc
  have hsalt : salt1 = salt2 := by
    have h1 : (c1.drop 4).take 16 = salt1 := by
      rw [hc1, show (4 : Nat) = (beBytes4 n).length from rfl, List.drop_left,
        show (16 : Nat) = salt1.length from h1l.symm, List.take_left]
    have h2 : (c2.drop 4).take 16 = salt2 := by
      rw [hc2, show (4 : Nat) = (beBytes4 n).length from rfl, List.drop_left,
        show (16 : Nat) = salt2.length from h2l.symm, List.take_left]
    rw [← h1, ← h2, hceq]
  have hiv : iv1 = iv2 := by
    have h1 : (c1.drop 20).take 12 = iv1 := by
      rw [hc1, show beBytes4 n ++ (salt1 ++ (iv1 ++
          (aeadEncrypt w1 (pbkdf2 mk salt1 n) iv1 (textEncode (stringifyCompact v))).2)) =
        (beBytes4 n ++ salt1) ++ (iv1 ++
          (aeadEncrypt w1 (pbkdf2 mk salt1 n) iv1 (textEncode (stringifyCompact v))).2) from by
          simp [List.append_assoc],
        show (20 : Nat) = (beBytes4 n ++ salt1).length from by simp [beBytes4, h1l],
        List.drop_left, show (12 : Nat) = iv1.length from h1il.symm, List.take_left]
    have h2 : (c2.drop 20).take 12 = iv2 := by
      rw [hc2, show beBytes4 n ++ (salt2 ++ (iv2 ++
          (aeadEncrypt w2 (pbkdf2 mk salt2 n) iv2 (textEncode (stringifyCompact v))).2)) =
        (beBytes4 n ++ salt2) ++ (iv2 ++
          (aeadEncrypt w2 (pbkdf2 mk salt2 n) iv2 (textEncode (stringifyCompact v))).2) from by
          simp [List.append_assoc],
        show (20 : Nat) = (beBytes4 n ++ salt2).length from by simp [beBytes4, h2l],
        List.drop_left, show (12 : Nat) = iv2.length from h2il.symm, List.take_left]
    rw [← h1, ← h2, hceq]
  rcases hne with h | h
  · exact h hsalt
  · exact h hiv

theorem claim_token_uniqueness_witness :
    (encryptValue aead0 "k".data Json.null none (List.replicate 16 0)
      (List.replicate 12 0)).2 ≠
    (encryptValue aead0 "k".data Json.null none (List.replicate 16 1)
      (List.replicate 12 0)).2 := by
  apply claim_token_uniqueness
  · rfl
  · intro x hx; rw [List.eq_of_mem_replicate hx]; decide
  · rfl
  · intro x hx; rw [List.eq_of_mem_replicate hx]; decide
  · rfl
  · intro x hx; rw [List.eq_of_mem_replicate hx]; decide
  · rfl
  · intro x hx; rw [List.eq_of_mem_replicate hx]; decide
  · exact Or.inl (by decide)

/-- C10: The key-derivation cache is transparent.  The cache key string
`masterKey:base64(salt):iterations` is injective over derivation tuples
with 16-byte salts (base64 and the decimal rendering contain no colon),
so for every consistent cache a hit can only return the key PBKDF2
would derive for that exact tuple: `deriveKey` returns the same AES key
regardless of prior cache contents, and leaves the cache consistent —
hence `encryptValue`/`decryptValue` results are independent of how many
derivations ran before. -/
theorem claim_kdf_cache_transparent :
    (∀ (mk1 mk2 : Str) (s1 s2 : List Nat) (i1 i2 : Nat),
      s1.length = 16 → s2.length = 16 →
      (∀ x ∈ s1, x < 256) → (∀ x ∈ s2, x < 256) →
      cacheKeyStr mk1 s1 i1 = cacheKeyStr mk2 s2 i2 →
      mk1 = mk2 ∧ s1 = s2 ∧ i1 = i2) ∧
    (∀ (cache : List (Str × DKey)), cacheConsistent cache →
      ∀ (mk : Str) (s : List Nat) (i : Nat), s.length = 16 → (∀ x ∈ s, x < 256) →
        (deriveKey cache mk s i).1 = pbkdf2 mk s i ∧
        cacheConsistent (deriveKey cache mk s i).2) := by
  constructor
  · intro mk1 mk2 s1 s2 i1 i2 _ _ hb1 hb2 h
    exact cacheKeyStr_injective mk1 mk2 s1 s2 i1 i2 hb1 hb2 h
  · intro cache hc mk s i _ hb
    exact ⟨deriveKey_transparent cache hc mk s i hb, deriveKey_preserves cache hc mk s i hb⟩

theorem claim_kdf_cache_transparent_witness :
    (deriveKey [] "k".data (List.replicate 16 0) 1000).1 =
      pbkdf2 "k".data (List.replicate 16 0) 1000 ∧
    cacheConsistent (deriveKey [] "k".data (List.replicate 16 0) 1000).2 := by
  exact claim_kdf_cache_transparent.2 [] cacheConsistent_nil "k".data
    (List.replicate 16 0) 1000 rfl
    (fun x hx => by rw [List.eq_of_mem_replicate hx]; decide)

/-- C2: For a token produced by `encryptValue(K, v)`, any token whose
decoded payload differs in the iterations, salt, IV, or ciphertext
sections fails to decrypt with a `RelicError` of code `DECRYPT_FAILED`
and returns no plaintext; likewise decryption with any master key other
than `K` fails with `DECRYPT_FAILED`.  (AES-GCM is modelled as the
ideal AEAD functionality: decryption succeeds exactly on recorded
(key, iv, ciphertext) triples.) -/
theorem claim_tamper_wrong_key (mk : Str) (v : Json) (opts : Option Nat)
    (hit : opts.getD Defaults.KDF_ITERATIONS < 4294967296)
    (salt iv : List Nat) (hsl : salt.length = 16) (hsb : ∀ x ∈ salt, x < 256)
    (hil : iv.length = 12) (hib : ∀ x ∈ iv, x < 256) :
    (∀ i4 s v2 c : List Nat,
      i4.length = 4 → s.length = 16 → v2.length = 12 →
      (∀ x ∈ i4, x < 256) → (∀ x ∈ s, x < 256) → (∀ x ∈ v2, x < 256) →
      (∀ x ∈ c, x < 256) →
      i4 ++ (s ++ (v2 ++ c)) ≠
        beBytes4 (opts.getD Defaults.KDF_ITERATIONS) ++ (salt ++ (iv ++
          (aeadEncrypt aead0 (pbkdf2 mk salt (opts.getD Defaults.KDF_ITERATIONS)) iv
            (textEncode (stringifyCompact v))).2)) →
      decryptValue (encryptValue aead0 mk v opts salt iv).1 mk
        (ENCRYPTED_VALUE_TAG ++ encodeBase64 (i4 ++ (s ++ (v2 ++ c)))) =
        .error (.relic decryptFailedError)) ∧
    (∀ mk2 : Str, mk2 ≠ mk →
      decryptValue (encryptValue aead0 mk v opts salt iv).1 mk2
        (encryptValue aead0 mk v opts salt iv).2 = .error (.relic decryptFailedError)) ∧
    decryptFailedError.code = ErrorCode.DECRYPT_FAILED := by
  set n := opts.getD Defaults.KDF_ITERATIONS with hn
  set msg := textEncode (stringifyCompact v) with hmsg
  set ct0 := (aeadEncrypt aead0 (pbkdf2 mk salt n) iv msg).2 with hct0
  have hw1 : (encryptValue aead0 mk v opts salt iv).1 =
      ⟨[⟨pbkdf2 mk salt n, iv, ct0, msg⟩]⟩ := rfl
  have hctb : ∀ x ∈ ct0, x < 256 := aeadEncrypt_ct_lt aead0 _ iv msg
  refine ⟨?_, ?_, rfl⟩
  · intro i4 s v2 c hl4 hl16 hl12 hb4 hbs hbv hbc hdiff
    rw [hw1, decryptValue_as_aead _ mk i4 s v2 c hl4 hl16 hl12 hb4 hbs hbv hbc]
    suffices hail : aeadDecrypt ⟨[⟨pbkdf2 mk salt n, iv, ct0, msg⟩]⟩
        (pbkdf2 mk s (beDecode4 (i4 ++ (s ++ (v2 ++ c))))) v2 c = none by rw [hail]
    unfold aeadDecrypt
    by_cases hc : ct0 = c
    · have hcontra : ¬(pbkdf2 mk salt n = pbkdf2 mk s (beDecode4 (i4 ++ (s ++ (v2 ++ c)))) ∧
          iv = v2) := by
        rintro ⟨hk, hiv2⟩
        unfold pbkdf2 at hk
        rw [DKey.mk.injEq] at hk
        obtain ⟨-, hks, hkn⟩ := hk
        have hbd : beDecode4 (i4 ++ (s ++ (v2 ++ c))) = beDecode4 i4 :=
          beDecode4_append_eq i4 _ hl4
        have hi4 : i4 = beBytes4 n := by
          rw [hkn, hbd, beBytes4_beDecode4 i4 hl4 hb4]
        exact hdiff (by rw [hi4, ← hks, ← hiv2, ← hc])
      simp only [aeadFind, if_pos hc]
      simp [hcontra]
    · simp only [aeadFind, if_neg hc]
  · intro mk2 hmk
    have htok : (encryptValue aead0 mk v opts salt iv).2 =
        ENCRYPTED_VALUE_TAG ++ encodeBase64 (beBytes4 n ++ (salt ++ (iv ++ ct0))) := rfl
    rw [hw1, htok, decryptValue_as_aead _ mk2 (beBytes4 n) salt iv ct0 rfl hsl hil
      (beBytes4_lt n) hsb hib hctb]
    suffices hail : aeadDecrypt ⟨[⟨pbkdf2 mk salt n, iv, ct0, msg⟩]⟩
        (pbkdf2 mk2 salt (beDecode4 (beBytes4 n ++ (salt ++ (iv ++ ct0))))) iv ct0 =
        none by rw [hail]
    unfold aeadDecrypt
    simp only [aeadFind, if_pos rfl]
    have hcontra : pbkdf2 mk salt n ≠
        pbkdf2 mk2 salt (beDecode4 (beBytes4 n ++ (salt ++ (iv ++ ct0)))) := by
      intro hk
      unfold pbkdf2 at hk
      rw [DKey.mk.injEq] at hk
      exact hmk hk.1.symm
    simp [hcontra]

theorem claim_tamper_wrong_key_witness :
    decryptValue (encryptValue aead0 "k".data Json.null none (List.replicate 16 0)
        (List.replicate 12 0)).1 "m".data
      (encryptValue aead0 "k".data Json.null none (List.replicate 16 0)
        (List.replicate 12 0)).2 = .error (.relic decryptFailedError) ∧
    decryptFailedError.code = ErrorCode.DECRYPT_FAILED := by
  have h := claim_tamper_wrong_key "k".data Json.null none (by decide)
    (List.replicate 16 0) (List.replicate 12 0) rfl
    (fun x hx => by rw [List.eq_of_mem_replicate hx]; decide) rfl
    (fun x hx => by rw [List.eq_of_mem_replicate hx]; decide)
  exact ⟨h.2.1 "m".data (by decide), h.2.2⟩

/-- In a run where the artifact loads and validates, the editor exits 0,
and the edited content fails JSON validation, `editCommand` exits 1 with
the artifact untouched — and the temporary file, though created, is not
removed (`process.exit(1)` inside the `try` skips the `finally`). -/
theorem editCommand_invalid_edit_run (w : AeadWorld) (mk : Str) (opts : Option Nat)
    (sup : Nat → List Nat × List Nat) (k : Nat) (inp : EditInput)
    (art : Str) (hart : inp.artifact = some art)
    (plaintext : Str) (hdec : decryptPayload w mk art = .ok plaintext)
    (formatted : Str) (hval : validateAndFormatJson plaintext = .ok formatted)
    (hed : inp.editorResult = .exited 0)
    (e : Err) (hbad : validateAndFormatJson inp.edited = .error e) :
    editCommand w mk opts sup k inp = ⟨1, inp.artifact, true, false⟩ := by
  unfold editCommand
  simp only [hart, hdec]
  unfold editAfterLoad
  simp only [hval, hed, hbad]
  rw [hart]

/-- C4: For every existing valid artifact and every edit run in which
the editor leaves content that is not a JSON object (parse error, array,
or scalar at the top level), the run aborts with exit code 1 without
reaching the encrypt-and-write step: the artifact file's content is
exactly its pre-transaction content. -/
theorem claim_nondestructive_abort (w : AeadWorld) (mk : Str) (opts : Option Nat)
    (sup : Nat → List Nat × List Nat) (k : Nat) (inp : EditInput)
    (art : Str) (hart : inp.artifact = some art)
    (plaintext : Str) (hdec : decryptPayload w mk art = .ok plaintext)
    (formatted : Str) (hval : validateAndFormatJson plaintext = .ok formatted)
    (hed : inp.editorResult = .exited 0)
    (hbad : jsonParse inp.edited = none ∨
      ∃ d, jsonParse inp.edited = some d ∧ isObjB d = false) :
    (editCommand w mk opts sup k inp).artifact = some art ∧
    (editCommand w mk opts sup k inp).exitCode = 1 := by
  have hbadv : ∃ e, validateAndFormatJson inp.edited = .error e := by
    unfold validateAndFormatJson
    rcases hbad with h | ⟨d, hd, hobj⟩
    · rw [h]
      exact ⟨_, rfl⟩
    · rw [hd]
      cases d with
      | obj fs => simp [isObjB] at hobj
      | null => exact ⟨_, rfl⟩
      | bool b => exact ⟨_, rfl⟩
      | num n => exact ⟨_, rfl⟩
      | str s2 => exact ⟨_, rfl⟩
      | arr xs => exact ⟨_, rfl⟩
  obtain ⟨e, he⟩ := hbadv
  rw [editCommand_invalid_edit_run w mk opts sup k inp art hart plaintext hdec
    formatted hval hed e he, hart]
  exact ⟨rfl, rfl⟩

theorem claim_nondestructive_abort_witness :
    (editCommand aead0 "k".data none (fun _ => (List.replicate 16 0, List.replicate 12 0)) 0
      ⟨some ('{' :: '}' :: []), .exited 0, ('[' :: ']' :: [])⟩).artifact =
        some ('{' :: '}' :: []) ∧
    (editCommand aead0 "k".data none (fun _ => (List.replicate 16 0, List.replicate 12 0)) 0
      ⟨some ('{' :: '}' :: []), .exited 0, ('[' :: ']' :: [])⟩).exitCode = 1 := by
  apply claim_nondestructive_abort aead0 "k".data none _ 0 _ ('{' :: '}' :: []) rfl
    ('{' :: '}' :: '\n' :: []) ?hdec ('{' :: '}' :: '\n' :: []) rfl rfl ?hbad
  case hdec =>
    unfold decryptPayload
    rw [show jsonParse ('{' :: '}' :: []) = some (Json.obj []) from rfl]
    simp only [decryptSecrets_nil]
    rfl
  case hbad => exact Or.inr ⟨Json.arr [], rfl, rfl⟩

/-- C3 (the failing path, evaluated): the run where the artifact `{}`
loads, the editor exits 0 but leaves `[]`, ends with the temporary
plaintext file created and not removed: `process.exit(1)` inside the
`try` block terminates Node without running the pending `finally`
cleanup, leaving the plaintext temp file on disk. -/
theorem claim_temp_file_left_on_invalid_json :
    (editCommand aead0 "k".data none (fun _ => (List.replicate 16 0, List.replicate 12 0)) 0
      ⟨some ('{' :: '}' :: []), .exited 0, ('[' :: ']' :: [])⟩).tempCreated = true ∧
    (editCommand aead0 "k".data none (fun _ => (List.replicate 16 0, List.replicate 12 0)) 0
      ⟨some ('{' :: '}' :: []), .exited 0, ('[' :: ']' :: [])⟩).tempRemoved = false := by
  have h := editCommand_invalid_edit_run aead0 "k".data none
    (fun _ => (List.replicate 16 0, List.replicate 12 0)) 0
    ⟨some ('{' :: '}' :: []), .exited 0, ('[' :: ']' :: [])⟩
    ('{' :: '}' :: []) rfl ('{' :: '}' :: '\n' :: [])
    (by
      unfold decryptPayload
      rw [show jsonParse ('{' :: '}' :: []) = some (Json.obj []) from rfl]
      simp only [decryptSecrets_nil]
      rfl)
    ('{' :: '}' :: '\n' :: []) rfl rfl
    (.generic "Secrets must be a JSON object".data) rfl
  rw [h]
  exact ⟨rfl, rfl⟩
